import Mathlib

/-!
# Line-oriented TCP echo server (`server.c`)

A shallow embedding of `write_all`, `parse_arguments` and `handle_connection`
from `server.c`, together with the properties of the line-buffering
algorithm, the partial-write loop and the port validation.

Conventions of the embedding:

* a byte is a `Nat` (`'\n'` is `10`, `'\0'` is `0`);
* `size_t` arithmetic is arithmetic modulo `2 ^ 64`;
* the system calls `read` and `write` are the environment: the results of
  the successive `read` calls are a list of `ReadResult`, the result of the
  `k`-th `write` call, asked for `n` bytes, is `w k n`;
* every call the handler makes is recorded in a trace of `Event`s;
* every access to `buffer` is bounds-checked, an access outside the array
  ends the run with `out_of_bounds`;
* loops that need not terminate (`write_all` when `write` keeps returning
  `0`) take fuel and report when it runs out.
-/

namespace EchoServer

/-! ## Constants and machine arithmetic -/

/-- The macro `#define DEFAULT_PORT 2345`. -/
def DEFAULT_PORT : Int := 2345

/-- The macro `#define BUFFER_SIZE 1024`. -/
def BUFFER_SIZE : Nat := 1024

/-- The byte `'\n'`. -/
def NEWLINE : Nat := 10

/-- The modulus of `size_t`, a 64-bit unsigned integer: `2 ^ 64`. -/
def SIZE_MOD : Nat := 18446744073709551616

/-- Largest value of `ssize_t`, `2 ^ 63 - 1`. -/
def SSIZE_MAX : Nat := 9223372036854775807

/-- Addition in `size_t`. -/
def size_add (a b : Nat) : Nat := (a + b) % SIZE_MOD

/-- Subtraction in `size_t` (wraps around below zero). -/
def size_sub (a b : Nat) : Nat := (a + SIZE_MOD - b % SIZE_MOD) % SIZE_MOD

/-- Conversion `size_t → ssize_t` (two's complement). -/
def to_ssize (n : Nat) : Int :=
  if n % SIZE_MOD ≤ SSIZE_MAX then ((n % SIZE_MOD : Nat) : Int)
  else ((n % SIZE_MOD : Nat) : Int) - (SIZE_MOD : Int)

/-- Conversion `ssize_t → size_t` (two's complement). -/
def to_size (i : Int) : Nat := (i % (SIZE_MOD : Int)).toNat

/-- The exit status `EXIT_SUCCESS`. -/
def EXIT_SUCCESS : Nat := 0

/-- The exit status `EXIT_FAILURE`. -/
def EXIT_FAILURE : Nat := 1

/-- The constant `LONG_MAX` of a 64-bit `long`. -/
def LONG_MAX : Int := 9223372036854775807

/-- The constant `LONG_MIN` of a 64-bit `long`. -/
def LONG_MIN : Int := -9223372036854775808

/-- The conversion `(int)parsed_port` of a `long` (two's complement, 32 bits). -/
def to_int (x : Int) : Int := (x + 2147483648) % 4294967296 - 2147483648

/-! ## The environment: `read`, `write` and the trace -/

/-- What one call of `read(2)` returned: `data bs` is a return value of
`bs.length` with the bytes `bs` stored at the address passed (`data []` is
the return value `0`, end of input), `error` is a negative return value. -/
inductive ReadResult
  | data (bs : List Nat)
  | error
deriving DecidableEq, Repr

/-- Number of bytes a `read` returned. -/
def ReadResult.length : ReadResult → Nat
  | .data bs => bs.length
  | .error => 0

/-- The calls made by the handler, in order.

* `read off count res`: `read(client_fd, buffer + off, count)` returned `res`;
* `line line_length buffer_len`: `strchr` found a newline, the line has
  `line_length` bytes while `buffer_len` bytes are buffered;
* `printf bytes`: the verbose `printf("Received: %.*s", ...)`;
* `write off bytes res`: `write(fd, buf + off, bytes.length)`, where `bytes`
  are the bytes at that address, returned `res`;
* `perror_write`, `perror_read`: the two `perror` calls. -/
inductive Event
  | read (off count : Nat) (res : ReadResult)
  | line (line_length buffer_len : Nat)
  | printf (bytes : List Nat)
  | write (off : Nat) (bytes : List Nat) (res : Int)
  | perror_write
  | perror_read
deriving DecidableEq, Repr

/-- The bytes an event puts on the wire towards the client: a `write` that
returned `res ≥ 0` sent the first `res` bytes it was given. -/
def Event.sent : Event → List Nat
  | .write _ bytes res => bytes.take res.toNat
  | _ => []

/-- All bytes written back to the client by a trace, in order. -/
def echoed : List Event → List Nat
  | [] => []
  | e :: t => e.sent ++ echoed t

/-- The `read` calls of a trace as `(offset, requested count, result)`. -/
def reads_of : List Event → List (Nat × Nat × ReadResult)
  | [] => []
  | .read off count res :: t => (off, count, res) :: reads_of t
  | _ :: t => reads_of t

/-! ## `write_all` -/

/-- Result of `write_all`: its return value (`none` when the fuel ran out
before the loop was left), the index of the next `write` call, and the
`write` calls it made. -/
structure WriteAllResult where
  ret : Option Int
  calls : Nat
  trace : List Event
deriving DecidableEq, Repr

/-- The `while (bytes_written < count)` loop of `write_all`. `k` is the index
of the next `write` call. -/
def write_all_loop (w : Nat → Nat → Int) (buf : List Nat) (count : Nat) :
    Nat → Nat → Nat → WriteAllResult
  | 0, k, _ => ⟨none, k, []⟩
  | fuel + 1, k, bytes_written =>
    if bytes_written < count then
      let req := size_sub count bytes_written
      let res := w k req
      let ev := Event.write bytes_written ((buf.drop bytes_written).take req) res
      if res < 0 then
        ⟨some res, k + 1, [ev]⟩
      else
        let r := write_all_loop w buf count fuel (k + 1)
          (size_add bytes_written (to_size res))
        ⟨r.ret, r.calls, ev :: r.trace⟩
    else
      ⟨some (to_ssize bytes_written), k, []⟩

/-- The function `static ssize_t write_all(int fd, const void *buf, size_t count)`:
`buf` is the memory at the address passed, `k` the index of the next `write`
call on the descriptor. -/
def write_all (fuel : Nat) (w : Nat → Nat → Int) (k : Nat) (buf : List Nat)
    (count : Nat) : WriteAllResult :=
  write_all_loop w buf count fuel k 0

/-! ## `handle_connection` -/

/-- The local variables of `handle_connection` (and the number of `write`
calls made so far on the connection). -/
structure State where
  buffer : List Nat
  buffer_len : Nat
  nwrites : Nat
deriving DecidableEq, Repr

/-- Result of `strchr`: a position, `NULL`, or a scan that left the array. -/
inductive StrchrResult
  | found (pos : Nat)
  | null
  | overrun
deriving DecidableEq, Repr

/-- Scan of `strchr(s, c)` from index `i`: stops at the first `c`, or at the
terminating `'\0'`. -/
def strchr_from (c : Nat) : List Nat → Nat → StrchrResult
  | [], _ => .overrun
  | b :: bs, i =>
    if b = c then .found i
    else if b = 0 then .null
    else strchr_from c bs (i + 1)

/-- The library function `strchr(s, c)` on the array `s`. -/
def strchr (s : List Nat) (c : Nat) : StrchrResult := strchr_from c s 0

/-- The assignment `buffer[i] = v`, bounds-checked. -/
def store (buffer : List Nat) (i v : Nat) : Option (List Nat) :=
  if i < buffer.length then some (buffer.set i v) else none

/-- The call `memmove(buffer, buffer + src, n)`, bounds-checked. -/
def memmove_front (buffer : List Nat) (src n : Nat) : Option (List Nat) :=
  if src + n ≤ buffer.length then
    some ((buffer.drop src).take n ++ buffer.drop n)
  else none

/-- Lines 98-103: the bookkeeping after a `read` that returned the bytes `bs`
(stored by the kernel at `buffer + buffer_len`). -/
def after_read (s : State) (bs : List Nat) : Option State :=
  if s.buffer_len + bs.length ≤ s.buffer.length then
    let buffer := s.buffer.take s.buffer_len ++ bs
      ++ s.buffer.drop (s.buffer_len + bs.length)
    let buffer_len := size_add s.buffer_len bs.length
    match store buffer buffer_len 0 with
    | none => none
    | some buffer =>
      if buffer_len = BUFFER_SIZE - 1 then
        match store buffer (size_sub buffer_len 1) NEWLINE with
        | none => none
        | some buffer => some ⟨buffer, buffer_len, s.nwrites⟩
      else
        some ⟨buffer, buffer_len, s.nwrites⟩
  else none

/-- How the inner `while` loop was left: `strchr` returned `NULL` (`done`), the
`break` after a failed `write_all` (`write_failed`), an access outside
`buffer`, or no fuel left in `write_all` or in the loop itself. -/
inductive LoopExit
  | done
  | write_failed
  | out_of_bounds
  | write_hang
  | fuel_out
deriving DecidableEq, Repr

/-- Result of the inner loop. -/
structure LoopResult where
  trace : List Event
  state : State
  exit : LoopExit
deriving DecidableEq, Repr

/-- Lines 107-120: `while ((newline_pos = strchr(buffer, '\n')) != NULL)`.
`wfuel` is the fuel of each `write_all`, the first `Nat` the fuel of the loop. -/
def process_lines (verbose : Bool) (w : Nat → Nat → Int) (wfuel : Nat) :
    Nat → State → LoopResult
  | 0, s => ⟨[], s, .fuel_out⟩
  | fuel + 1, s =>
    match strchr s.buffer NEWLINE with
    | .overrun => ⟨[], s, .out_of_bounds⟩
    | .null => ⟨[], s, .done⟩
    | .found pos =>
      let line_length := pos + 1
      let ev := Event.line line_length s.buffer_len ::
        (if verbose then [Event.printf (s.buffer.take line_length)] else [])
      let r := write_all wfuel w s.nwrites s.buffer line_length
      match r.ret with
      | none => ⟨ev ++ r.trace, { s with nwrites := r.calls }, .write_hang⟩
      | some ret =>
        if ret < 0 then
          ⟨ev ++ r.trace ++ [Event.perror_write], { s with nwrites := r.calls },
            .write_failed⟩
        else
          let remaining := size_sub s.buffer_len line_length
          match memmove_front s.buffer line_length remaining with
          | none => ⟨ev ++ r.trace, { s with nwrites := r.calls }, .out_of_bounds⟩
          | some buffer =>
            match store buffer remaining 0 with
            | none => ⟨ev ++ r.trace, { s with nwrites := r.calls }, .out_of_bounds⟩
            | some buffer =>
              let next := process_lines verbose w wfuel fuel ⟨buffer, remaining, r.calls⟩
              ⟨ev ++ r.trace ++ next.trace, next.state, next.exit⟩

/-- How a run of the handler over the supplied `read` results ended.

* `blocked`: every result supplied was consumed, the handler waits in `read`;
* `eof`, `read_error`: `read` returned `0`, or a negative value: the handler
  returned;
* `bad_read`: the result supplied is longer than the count requested, which
  `read` never returns;
* `out_of_bounds`: an access outside `buffer`;
* `write_hang`: the fuel of a `write_all` ran out;
* `loop_hang`: the fuel of the inner loop ran out. -/
inductive Status
  | blocked
  | eof
  | read_error
  | bad_read
  | out_of_bounds
  | write_hang
  | loop_hang
deriving DecidableEq, Repr

/-- A run of the handler: its trace, the final local variables, its status. -/
structure Result where
  trace : List Event
  final : State
  status : Status
deriving DecidableEq, Repr

/-- Lines 96-121: the `while ((bytes_read = read(...)) > 0)` loop, from the
state `s`, over the results of the successive `read` calls.

* no `read` result left: the handler is `blocked` in `read`;
* a result longer than the count requested is not a result of `read`: `bad_read`;
* `data []` ends the loop (`eof`), `error` ends it with `perror("read failed")`;
* a `break` after a failed write leaves the inner loop only: the outer
  loop goes on with the next `read`. -/
def serve (verbose : Bool) (w : Nat → Nat → Int) (fuel : Nat) :
    State → List ReadResult → Result
  | s, [] => ⟨[], s, .blocked⟩
  | s, r :: rs =>
    let count := size_sub (size_sub BUFFER_SIZE s.buffer_len) 1
    let ev := Event.read s.buffer_len count r
    match r with
    | .error => ⟨[ev, Event.perror_read], s, .read_error⟩
    | .data bs =>
      if count < bs.length then ⟨[ev], s, .bad_read⟩
      else if bs.length = 0 then ⟨[ev], s, .eof⟩
      else
        match after_read s bs with
        | none => ⟨[ev], s, .out_of_bounds⟩
        | some s1 =>
          let lr := process_lines verbose w fuel fuel s1
          match lr.exit with
          | .done | .write_failed =>
            let next := serve verbose w fuel lr.state rs
            ⟨ev :: lr.trace ++ next.trace, next.final, next.status⟩
          | .out_of_bounds => ⟨ev :: lr.trace, lr.state, .out_of_bounds⟩
          | .write_hang => ⟨ev :: lr.trace, lr.state, .write_hang⟩
          | .fuel_out => ⟨ev :: lr.trace, lr.state, .loop_hang⟩

/-- The local variables on entry: `garbage` is the content of the
uninitialised array `buffer`, `buffer_len = 0`, no `write` made yet. -/
def initial (garbage : Nat → Nat) : State :=
  ⟨(List.range BUFFER_SIZE).map garbage, 0, 0⟩

/-- The function `static void handle_connection(int client_fd, bool verbose)`,
run over the results `reads` of its successive `read` calls. -/
def handle_connection (verbose : Bool) (w : Nat → Nat → Int) (fuel : Nat)
    (garbage : Nat → Nat) (reads : List ReadResult) : Result :=
  serve verbose w fuel (initial garbage) reads

/-! ## `parse_arguments` and the start of `main`

The library functions are the environment here too: `getopt` is the list of
its successive results, `strtol` is modelled after ISO C. -/

/-- The library function `isspace` in the C locale: space, `\t`, `\n`, `\v`,
`\f`, `\r`. -/
def isspace (c : Nat) : Bool := c = 32 || (9 ≤ c && c ≤ 13)

/-- The library function `isdigit`: `'0'` to `'9'`. -/
def isdigit (c : Nat) : Bool := 48 ≤ c && c ≤ 57

/-- The digit loop of `strtol` in base 10: the value of the longest run of
digits at the front of the string (continuing from `acc`) and the rest. -/
def strtol_digits : List Nat → Nat → Nat × List Nat
  | [], acc => (acc, [])
  | c :: cs, acc =>
    if isdigit c then strtol_digits cs (acc * 10 + (c - 48)) else (acc, c :: cs)

/-- The library function `strtol(nptr, &endptr, 10)` as ISO C specifies it,
on a C string given as the list of its bytes before the terminating NUL: the
value returned and the string `endptr` points to. Leading white space is skipped, one sign is
accepted, the digits are converted and the value is clamped to
`LONG_MIN .. LONG_MAX`; with no digit there is no conversion: the value is `0`
and `endptr` is `nptr`. -/
def strtol (nptr : List Nat) : Int × List Nat :=
  let s := nptr.dropWhile isspace
  let neg : Bool := s.head? = some 45
  let s := if s.head? = some 45 ∨ s.head? = some 43 then s.tail else s
  match s with
  | [] => (0, nptr)
  | c :: _ =>
    if isdigit c then
      let r := strtol_digits s 0
      let v : Int := if neg then -(r.1 : Int) else (r.1 : Int)
      (max LONG_MIN (min LONG_MAX v), r.2)
    else (0, nptr)

/-- What one call of `getopt(argc, argv, "p:vh")` returned before `-1`: the
option character (`'?'` for an unknown option or a missing argument) and
`optarg`. -/
structure GetoptResult where
  opt : Nat
  optarg : List Nat
deriving DecidableEq, Repr

/-- What `parse_arguments` printed before `exit`. -/
inductive Diagnostic
  | invalid_port (optarg : List Nat)
  | usage_stdout
  | usage_stderr
deriving DecidableEq, Repr

/-- How `parse_arguments` ends: it returns with `*port` and `*verbose` set, or
it calls `exit`. -/
inductive ParseResult
  | returned (port : Int) (verbose : Bool)
  | exited (status : Nat) (msg : Diagnostic)
deriving DecidableEq, Repr

/-- The function
`static void parse_arguments(int argc, char *argv[], int *port, bool *verbose)`,
over the results of the successive `getopt` calls (`[]`: `getopt` returns `-1`).
The option characters are `'p' = 112`, `'v' = 118`, `'h' = 104`. -/
def parse_arguments : List GetoptResult → Int → Bool → ParseResult
  | [], port, verbose => .returned port verbose
  | o :: os, port, verbose =>
    if o.opt = 112 then
      let r := strtol o.optarg
      if r.2 ≠ [] ∨ r.1 < 1 ∨ r.1 > 65535 then
        .exited EXIT_FAILURE (.invalid_port o.optarg)
      else
        parse_arguments os (to_int r.1) verbose
    else if o.opt = 118 then
      parse_arguments os port true
    else if o.opt = 104 then
      .exited EXIT_SUCCESS .usage_stdout
    else
      .exited EXIT_FAILURE .usage_stderr

/-- The start of `main`, up to the call of `setup_server_socket`. -/
inductive Startup
  | exited (status : Nat)
  | setup_server_socket (port : Int) (verbose : Bool)
deriving DecidableEq, Repr

/-- Lines 144-149 of `main`: `parse_arguments` on the defaults, then
`setup_server_socket(port)`. -/
def main_startup (opts : List GetoptResult) : Startup :=
  match parse_arguments opts DEFAULT_PORT false with
  | .exited status _ => .exited status
  | .returned port verbose => .setup_server_socket port verbose

/-! ## Vocabulary of the properties -/

/-- A `write` that always writes everything it is asked to. -/
def write_full : Nat → Nat → Int := fun _ n => (n : Int)

/-- A `write` that writes one byte per call. -/
def write_one : Nat → Nat → Int := fun _ _ => 1

/-- Every `write` succeeds: asked for `n > 0` bytes, the `k`-th `write` call
returns a number of bytes between 1 and `n`. -/
def GoodWrites (w : Nat → Nat → Int) : Prop :=
  ∀ k n, 0 < n → 1 ≤ w k n ∧ w k n ≤ (n : Int)

/-- Specification: the longest prefix of `xs` that ends with a newline (empty
when `xs` has no newline). `longestLinePrefix_unique` and
`longestLinePrefix_is_longest` show that this is what it computes. -/
def longestLinePrefix : List Nat → List Nat
  | [] => []
  | x :: xs =>
    match longestLinePrefix xs with
    | [] => if x = NEWLINE then [x] else []
    | p :: ps => x :: p :: ps

/-- Specification: what is left of `xs` after its longest prefix that ends
with a newline, the unterminated remainder. -/
def unterminated (xs : List Nat) : List Nat := xs.drop (longestLinePrefix xs).length

/-- The bytes in the buffer once line 103 has run on the received bytes `xs`:
when they fill the buffer the last one is overwritten with a newline. -/
def forced (xs : List Nat) : List Nat :=
  if xs.length = BUFFER_SIZE - 1 then xs.take (BUFFER_SIZE - 2) ++ [NEWLINE] else xs

/-- The array `buffer` starts with the bytes `v` (`buffer_len` of them) and
has at least one more cell. -/
def Buffered (buffer : List Nat) (buffer_len : Nat) (v : List Nat) : Prop :=
  buffer.length = BUFFER_SIZE ∧ buffer_len = v.length ∧ ∃ x t, buffer = v ++ x :: t

/-- The array `buffer` is the C string `v` followed by its `'\0'`. -/
def Holds (buffer : List Nat) (buffer_len : Nat) (v : List Nat) : Prop :=
  buffer.length = BUFFER_SIZE ∧ buffer_len = v.length ∧ ∃ t, buffer = v ++ 0 :: t

/-- Bounds that the index arithmetic of a call must respect: a `read` is
passed the offset `buffer_len ≤ BUFFER_SIZE - 1` and requests
`BUFFER_SIZE - 1 - buffer_len` bytes; an extracted line has
`1 ≤ line_length ≤ buffer_len ≤ BUFFER_SIZE - 1`, so that
`remaining = buffer_len - line_length`, computed in `size_t`, does not wrap
around and is smaller than `buffer_len`. -/
def Event.bounds_ok : Event → Prop
  | .read off count _ => off ≤ BUFFER_SIZE - 1 ∧ count = BUFFER_SIZE - 1 - off
  | .line line_length buffer_len =>
    1 ≤ line_length ∧ line_length ≤ buffer_len ∧ buffer_len ≤ BUFFER_SIZE - 1 ∧
      size_sub buffer_len line_length = buffer_len - line_length ∧
      size_sub buffer_len line_length < buffer_len
  | _ => True

/-- The run `r` preceded by the trace `tr`. -/
def Result.after (tr : List Event) (r : Result) : Result :=
  ⟨tr ++ r.trace, r.final, r.status⟩

/-- The bytes buffered at the end of a run: `buffer[0 .. buffer_len)`. -/
def Result.buffered (r : Result) : List Nat := r.final.buffer.take r.final.buffer_len

/-- After no `read` of the trace did the buffered length reach `BUFFER_SIZE - 1`. -/
def never_full (t : List Event) : Prop :=
  ∀ x ∈ reads_of t, x.1 + x.2.2.length < BUFFER_SIZE - 1

instance never_full_decidable (t : List Event) : Decidable (never_full t) := by
  unfold never_full
  infer_instance

/-- An argument of `-p` that the check of line 34 accepts: entirely consumed
by `strtol`, with a value in `1 .. 65535`. -/
def valid_port (s : List Nat) : Prop :=
  (strtol s).2 = [] ∧ 1 ≤ (strtol s).1 ∧ (strtol s).1 ≤ 65535

instance valid_port_decidable (s : List Nat) : Decidable (valid_port s) := by
  unfold valid_port
  infer_instance

/-- The value `*port` has after the options `opts`, when none of them exits:
the value of the last `-p` argument, if any. -/
def last_port : List GetoptResult → Int → Int
  | [], port => port
  | o :: os, port => last_port os (if o.opt = 112 then (strtol o.optarg).1 else port)

/-- The decimal numeral of `n` as a C string. -/
def decimal (n : Nat) : List Nat :=
  if n = 0 then [48] else (Nat.digits 10 n).reverse.map (· + 48)

/-! ## Lemmas: machine arithmetic and traces -/

theorem size_sub_eq {a b : Nat} (hb : b ≤ a) (ha : a < SIZE_MOD) : size_sub a b = a - b := by
  unfold size_sub SIZE_MOD at *; omega

theorem size_add_eq {a b : Nat} (h : a + b < SIZE_MOD) : size_add a b = a + b := by
  unfold size_add SIZE_MOD at *; omega

theorem to_size_natCast (n : Nat) (h : n < SIZE_MOD) : to_size (n : Int) = n := by
  unfold to_size SIZE_MOD at *; omega

theorem to_ssize_eq {n : Nat} (h : n ≤ SSIZE_MAX) : to_ssize n = (n : Int) := by
  unfold to_ssize SSIZE_MAX SIZE_MOD at *
  have : n % 18446744073709551616 = n := by omega
  simp [this, h]

theorem to_int_eq {x : Int} (h1 : 1 ≤ x) (h2 : x ≤ 65535) : to_int x = x := by
  unfold to_int
  omega

theorem read_count {n : Nat} (h : n < BUFFER_SIZE) :
    size_sub (size_sub BUFFER_SIZE n) 1 = BUFFER_SIZE - 1 - n := by
  unfold BUFFER_SIZE at *
  unfold size_sub SIZE_MOD
  omega

theorem echoed_append (s t : List Event) : echoed (s ++ t) = echoed s ++ echoed t := by
  induction s with
  | nil => rfl
  | cons e s ih => simp [echoed, ih]

theorem reads_of_append (s t : List Event) : reads_of (s ++ t) = reads_of s ++ reads_of t := by
  induction s with
  | nil => rfl
  | cons e s ih => cases e <;> simp [reads_of, ih]

theorem mem_of_mem_reads_of {t : List Event} {off count : Nat} {res : ReadResult}
    (h : (off, count, res) ∈ reads_of t) : Event.read off count res ∈ t := by
  induction t with
  | nil => simp [reads_of] at h
  | cons e t ih =>
    cases e with
    | read o c r =>
      simp only [reads_of, List.mem_cons] at h ⊢
      rcases h with h | h
      · left
        cases h
        rfl
      · right
        exact ih h
    | line _ _ => exact List.mem_cons_of_mem _ (ih h)
    | printf _ => exact List.mem_cons_of_mem _ (ih h)
    | write _ _ _ => exact List.mem_cons_of_mem _ (ih h)
    | perror_write => exact List.mem_cons_of_mem _ (ih h)
    | perror_read => exact List.mem_cons_of_mem _ (ih h)

theorem Result.after_after (t1 t2 : List Event) (r : Result) :
    (r.after t2).after t1 = r.after (t1 ++ t2) := by
  simp [Result.after]

theorem Result.after_nil (r : Result) : r.after [] = r := by
  simp [Result.after]

/-! ## Lemmas: lines of a byte sequence -/

theorem longestLinePrefix_of_not_mem {r : List Nat} (h : NEWLINE ∉ r) : longestLinePrefix r = [] := by
  induction r with
  | nil => rfl
  | cons x r ih =>
    simp only [List.mem_cons, not_or] at h
    simp [longestLinePrefix, ih h.2, Ne.symm h.1]

theorem longestLinePrefix_snoc_append (q r : List Nat) (h : NEWLINE ∉ r) :
    longestLinePrefix (q ++ NEWLINE :: r) = q ++ [NEWLINE] := by
  induction q with
  | nil => simp [longestLinePrefix, longestLinePrefix_of_not_mem h]
  | cons x q ih =>
    have key : longestLinePrefix (x :: (q ++ NEWLINE :: r)) = x :: (q ++ [NEWLINE]) := by
      rw [longestLinePrefix, ih]
      cases q <;> rfl
    simpa using key

theorem longestLinePrefix_append_unterminated (xs : List Nat) :
    longestLinePrefix xs ++ unterminated xs = xs := by
  unfold unterminated
  induction xs with
  | nil => rfl
  | cons x xs ih =>
    simp only [longestLinePrefix]
    cases h : longestLinePrefix xs with
    | nil =>
      rw [h] at ih
      simp at ih
      by_cases hx : x = NEWLINE <;> simp [hx]
    | cons p ps =>
      rw [h] at ih
      simpa using ih

theorem longestLinePrefix_ends (xs : List Nat) :
    longestLinePrefix xs = [] ∨ ∃ q, longestLinePrefix xs = q ++ [NEWLINE] := by
  induction xs with
  | nil => exact Or.inl rfl
  | cons x xs ih =>
    simp only [longestLinePrefix]
    cases h : longestLinePrefix xs with
    | nil =>
      by_cases hx : x = NEWLINE
      · exact Or.inr ⟨[], by simp [hx]⟩
      · exact Or.inl (by simp [hx])
    | cons p ps =>
      rw [h] at ih
      rcases ih with ih | ⟨q, hq⟩
      · cases ih
      · exact Or.inr ⟨x :: q, by simp [hq]⟩

theorem not_mem_unterminated (xs : List Nat) : NEWLINE ∉ unterminated xs := by
  induction xs with
  | nil => simp [unterminated, longestLinePrefix]
  | cons x xs ih =>
    unfold unterminated at ih ⊢
    simp only [longestLinePrefix]
    cases h : longestLinePrefix xs with
    | nil =>
      rw [h] at ih
      simp only [List.length_nil, List.drop_zero] at ih
      by_cases hx : x = NEWLINE
      · simpa [hx] using ih
      · simp only [hx, if_false, List.length_nil, List.drop_zero, List.mem_cons, not_or]
        exact ⟨Ne.symm hx, ih⟩
    | cons p ps =>
      rw [h] at ih
      simpa using ih

theorem longestLinePrefix_unique {p r : List Nat} (hr : NEWLINE ∉ r)
    (hp : p = [] ∨ ∃ q, p = q ++ [NEWLINE]) :
    longestLinePrefix (p ++ r) = p ∧ unterminated (p ++ r) = r := by
  have h1 : longestLinePrefix (p ++ r) = p := by
    rcases hp with rfl | ⟨q, rfl⟩
    · simpa using longestLinePrefix_of_not_mem hr
    · simpa using longestLinePrefix_snoc_append q r hr
  exact ⟨h1, by simp [unterminated, h1]⟩

theorem longestLinePrefix_append (x y : List Nat) :
    longestLinePrefix (x ++ y)
        = longestLinePrefix x ++ longestLinePrefix (unterminated x ++ y) ∧
      unterminated (x ++ y) = unterminated (unterminated x ++ y) := by
  have hx := longestLinePrefix_append_unterminated x
  have hy := longestLinePrefix_append_unterminated (unterminated x ++ y)
  have hsplit : x ++ y = (longestLinePrefix x ++ longestLinePrefix (unterminated x ++ y))
      ++ unterminated (unterminated x ++ y) := by
    rw [List.append_assoc, hy, ← List.append_assoc, hx]
  have hend : longestLinePrefix x ++ longestLinePrefix (unterminated x ++ y) = [] ∨
      ∃ q, longestLinePrefix x ++ longestLinePrefix (unterminated x ++ y) = q ++ [NEWLINE] := by
    rcases longestLinePrefix_ends (unterminated x ++ y) with h | ⟨q, hq⟩
    · rw [h, List.append_nil]
      exact longestLinePrefix_ends x
    · exact Or.inr ⟨longestLinePrefix x ++ q, by rw [hq, List.append_assoc]⟩
  have := longestLinePrefix_unique (not_mem_unterminated (unterminated x ++ y)) hend
  rw [← hsplit] at this
  exact this

theorem longestLinePrefix_is_longest (xs p r : List Nat) (hsplit : xs = p ++ r)
    (hp : p = [] ∨ ∃ q, p = q ++ [NEWLINE]) :
    p.length ≤ (longestLinePrefix xs).length := by
  have hu := @longestLinePrefix_unique p [] (by simp) hp
  simp only [List.append_nil] at hu
  have h := (longestLinePrefix_append p r).1
  rw [hu.1, hu.2, ← hsplit] at h
  rw [h, List.length_append]
  omega

theorem lines_cons (a b : List Nat) :
    longestLinePrefix (a ++ NEWLINE :: b) = a ++ NEWLINE :: longestLinePrefix b ∧
    unterminated (a ++ NEWLINE :: b) = unterminated b := by
  have h := longestLinePrefix_append (a ++ [NEWLINE]) b
  have hu := @longestLinePrefix_unique (a ++ [NEWLINE]) [] (by simp) (Or.inr ⟨a, rfl⟩)
  simp only [List.append_nil] at hu
  rw [hu.1, hu.2] at h
  simpa using h

theorem flatten_lines_ends (lines : List (List Nat))
    (h : ∀ l ∈ lines, ∃ body, l = body ++ [NEWLINE] ∧ NEWLINE ∉ body) :
    lines.flatten = [] ∨ ∃ q, lines.flatten = q ++ [NEWLINE] := by
  induction lines with
  | nil => exact Or.inl rfl
  | cons l ls ih =>
    obtain ⟨body, rfl, _⟩ := h _ (List.mem_cons_self _ _)
    rcases ih (fun l hl => h l (List.mem_cons_of_mem _ hl)) with h0 | ⟨q, hq⟩
    · exact Or.inr ⟨body, by rw [List.flatten_cons, h0, List.append_nil]⟩
    · exact Or.inr ⟨body ++ [NEWLINE] ++ q, by
        rw [List.flatten_cons, hq, List.append_assoc, List.append_assoc, List.append_assoc]⟩

theorem unterminated_length_le (xs : List Nat) : (unterminated xs).length ≤ xs.length := by
  unfold unterminated
  simp

theorem zero_not_mem_unterminated {xs : List Nat} (h : 0 ∉ xs) : 0 ∉ unterminated xs :=
  fun hm => h (List.mem_of_mem_drop hm)

theorem zero_not_mem_append {v bs : List Nat} (hv : 0 ∉ v) (hbs : 0 ∉ bs) : 0 ∉ v ++ bs := by
  intro h
  rcases List.mem_append.mp h with h | h
  · exact hv h
  · exact hbs h

theorem zero_not_mem_forced {xs : List Nat} (h : 0 ∉ xs) : 0 ∉ forced xs := by
  unfold forced
  split
  · intro hm
    rcases List.mem_append.mp hm with hm | hm
    · exact h (List.mem_of_mem_take hm)
    · simp [NEWLINE] at hm
  · exact h

theorem forced_length (xs : List Nat) : (forced xs).length = xs.length := by
  unfold forced
  split
  · rename_i h
    simp [BUFFER_SIZE] at *
    omega
  · rfl

theorem forced_of_lt {xs : List Nat} (h : xs.length < BUFFER_SIZE - 1) : forced xs = xs := by
  unfold forced
  rw [if_neg (by omega)]

theorem unterminated_forced_full {xs : List Nat} (h : xs.length = BUFFER_SIZE - 1) :
    longestLinePrefix (forced xs) = forced xs ∧ unterminated (forced xs) = [] := by
  have hf : forced xs = xs.take (BUFFER_SIZE - 2) ++ [NEWLINE] := by simp [forced, h]
  rw [hf]
  have := @longestLinePrefix_unique (xs.take (BUFFER_SIZE - 2) ++ [NEWLINE]) [] (by simp)
    (Or.inr ⟨_, rfl⟩)
  simpa using this

/-! ## Lemmas: `write_all` -/

theorem write_full_good : GoodWrites write_full := by
  intro k n h
  simp only [write_full]
  omega

theorem write_one_good : GoodWrites write_one := by
  intro k n h
  simp only [write_one]
  omega

theorem write_all_loop_good {w : Nat → Nat → Int} (hw : GoodWrites w) (buf : List Nat)
    (count : Nat) (hc : count ≤ SSIZE_MAX) :
    ∀ fuel k bw, bw ≤ count → count - bw < fuel →
      (write_all_loop w buf count fuel k bw).ret = some (count : Int) ∧
      k ≤ (write_all_loop w buf count fuel k bw).calls ∧
      echoed (write_all_loop w buf count fuel k bw).trace = (buf.take count).drop bw := by
  intro fuel
  induction fuel with
  | zero => intro k bw _ h; omega
  | succ fuel ih =>
    intro k bw hle hfuel
    by_cases hlt : bw < count
    · have hreq : size_sub count bw = count - bw :=
        size_sub_eq hle (by unfold SSIZE_MAX at hc; unfold SIZE_MOD; omega)
      obtain ⟨h1, h2⟩ := hw k (count - bw) (by omega)
      obtain ⟨n, hn⟩ := Int.eq_ofNat_of_zero_le (by omega : 0 ≤ w k (count - bw))
      have hn1 : 1 ≤ n := by omega
      have hn2 : n ≤ count - bw := by omega
      have hadd : size_add bw (to_size (w k (count - bw))) = bw + n := by
        rw [hn, to_size_natCast n (by unfold SSIZE_MAX at hc; unfold SIZE_MOD; omega)]
        exact size_add_eq (by unfold SSIZE_MAX at hc; unfold SIZE_MOD; omega)
      obtain ⟨hret, hcalls, hech⟩ := ih (k + 1) (bw + n) (by omega) (by omega)
      have hneg : ¬ w k (count - bw) < 0 := by omega
      have hstep : write_all_loop w buf count (fuel + 1) k bw =
          ⟨(write_all_loop w buf count fuel (k + 1) (bw + n)).ret,
           (write_all_loop w buf count fuel (k + 1) (bw + n)).calls,
           Event.write bw ((buf.drop bw).take (count - bw)) (w k (count - bw)) ::
             (write_all_loop w buf count fuel (k + 1) (bw + n)).trace⟩ := by
        rw [write_all_loop]
        simp only [hlt, if_true, hreq, hneg, if_false, hadd]
      rw [hstep]
      refine ⟨hret, Nat.le_trans (Nat.le_succ k) hcalls, ?_⟩
      show echoed (_ :: _) = _
      simp only [echoed, Event.sent, hech, hn, Int.toNat_ofNat]
      rw [← List.drop_drop, List.drop_take]
      exact List.take_append_drop n _
    · have hbw : bw = count := by omega
      subst hbw
      have hstep : write_all_loop w buf bw (fuel + 1) k bw = ⟨some (to_ssize bw), k, []⟩ := by
        rw [write_all_loop]
        simp only [hlt, if_false]
      rw [hstep]
      exact ⟨by rw [to_ssize_eq hc], le_refl _, by simp [echoed]⟩

theorem write_all_loop_trace (w : Nat → Nat → Int) (buf : List Nat) (count : Nat) :
    ∀ fuel k bw, reads_of (write_all_loop w buf count fuel k bw).trace = [] ∧
      ∀ e ∈ (write_all_loop w buf count fuel k bw).trace, e.bounds_ok := by
  intro fuel
  induction fuel with
  | zero => intro k bw; simp [write_all_loop, reads_of]
  | succ fuel ih =>
    intro k bw
    rw [write_all_loop]
    by_cases hlt : bw < count
    · by_cases hneg : w k (size_sub count bw) < 0
      · simp [hlt, hneg, reads_of, Event.bounds_ok]
      · obtain ⟨h1, h2⟩ := ih (k + 1) (size_add bw (to_size (w k (size_sub count bw))))
        simp only [hlt, hneg, if_true, if_false, reads_of, h1, List.mem_cons, true_and]
        rintro e (rfl | he)
        · trivial
        · exact h2 e he
    · simp [hlt, reads_of]

theorem write_all_loop_failure (w : Nat → Nat → Int) (buf : List Nat) (count : Nat) :
    ∀ fuel k bw pre off bytes res post,
      (write_all_loop w buf count fuel k bw).trace = pre ++ Event.write off bytes res :: post →
      res < 0 →
      post = [] ∧ (write_all_loop w buf count fuel k bw).ret = some res := by
  intro fuel
  induction fuel with
  | zero =>
    intro k bw pre off bytes res post h _
    simp [write_all_loop] at h
  | succ fuel ih =>
    intro k bw pre off bytes res post h hres
    rw [write_all_loop] at h ⊢
    by_cases hlt : bw < count
    · by_cases hneg : w k (size_sub count bw) < 0
      · simp only [hlt, hneg, if_true] at h ⊢
        cases pre with
        | nil =>
          simp only [List.nil_append, List.cons.injEq, Event.write.injEq] at h
          obtain ⟨⟨_, _, h3⟩, h4⟩ := h
          exact ⟨h4.symm, by rw [h3]⟩
        | cons e pre =>
          simp only [List.cons_append, List.cons.injEq] at h
          have := congrArg List.length h.2
          simp only [List.length_nil, List.length_append, List.length_cons] at this
          omega
      · simp only [hlt, hneg, if_true, if_false] at h ⊢
        cases pre with
        | nil =>
          simp only [List.nil_append, List.cons.injEq, Event.write.injEq] at h
          obtain ⟨⟨_, _, h3⟩, _⟩ := h
          rw [h3] at hneg
          exact absurd hres hneg
        | cons e pre =>
          simp only [List.cons_append, List.cons.injEq] at h
          exact ih _ _ pre off bytes res post h.2 hres
    · simp [hlt] at h

/-! ## Lemmas: the buffer, `strchr` and the bookkeeping after a `read` -/

theorem Holds.buffered {buffer : List Nat} {n : Nat} {v : List Nat} (h : Holds buffer n v) :
    Buffered buffer n v := by
  obtain ⟨h1, h2, t, h3⟩ := h
  exact ⟨h1, h2, 0, t, h3⟩

theorem Buffered.length_lt {buffer : List Nat} {n : Nat} {v : List Nat}
    (h : Buffered buffer n v) : v.length < BUFFER_SIZE := by
  obtain ⟨h1, _, x, t, h3⟩ := h
  rw [h3] at h1
  simp at h1
  omega

theorem Buffered.take_eq {buffer : List Nat} {n : Nat} {v : List Nat}
    (h : Buffered buffer n v) : buffer.take n = v := by
  obtain ⟨_, h2, x, t, h3⟩ := h
  rw [h3, h2, List.take_left]

theorem buffered_init {buffer : List Nat} (h : buffer.length = BUFFER_SIZE) :
    Buffered buffer 0 [] := by
  refine ⟨h, rfl, ?_⟩
  cases buffer with
  | nil => simp [BUFFER_SIZE] at h
  | cons x t => exact ⟨x, t, rfl⟩

theorem initial_buffered (garbage : Nat → Nat) :
    Buffered (initial garbage).buffer (initial garbage).buffer_len [] := by
  have h : (initial garbage).buffer.length = BUFFER_SIZE := by
    unfold initial
    rw [List.length_map, List.length_range]
  exact buffered_init h

theorem store_at_length (v : List Nat) (x : Nat) (t : List Nat) (a : Nat) :
    store (v ++ x :: t) v.length a = some (v ++ a :: t) := by
  unfold store
  have h : v.length < (v ++ x :: t).length := by simp
  rw [if_pos h, List.set_append_right _ _ (le_refl _)]
  simp

theorem strchr_from_found (c : Nat) (a b : List Nat) (hc : c ∉ a) (h0 : 0 ∉ a) :
    ∀ i, strchr_from c (a ++ c :: b) i = .found (i + a.length) := by
  induction a with
  | nil => intro i; simp [strchr_from]
  | cons x a ih =>
    intro i
    simp only [List.mem_cons, not_or] at hc h0
    have h1 : ¬ x = c := fun h => hc.1 h.symm
    have h2 : ¬ x = 0 := fun h => h0.1 h.symm
    rw [List.cons_append, strchr_from]
    simp only [h1, h2, if_false]
    rw [ih hc.2 h0.2, List.length_cons]
    congr 1
    omega

theorem strchr_from_null (c : Nat) (hc0 : c ≠ 0) (a b : List Nat) (hc : c ∉ a) (h0 : 0 ∉ a) :
    ∀ i, strchr_from c (a ++ 0 :: b) i = .null := by
  induction a with
  | nil => intro i; simp [strchr_from, Ne.symm hc0]
  | cons x a ih =>
    intro i
    simp only [List.mem_cons, not_or] at hc h0
    have h1 : ¬ x = c := fun h => hc.1 h.symm
    have h2 : ¬ x = 0 := fun h => h0.1 h.symm
    rw [List.cons_append, strchr_from]
    simp only [h1, h2, if_false]
    exact ih hc.2 h0.2 _

/-- Where a scan for `'\n'` stops in `v`: at a newline, at a NUL, or nowhere. -/
theorem first_stop (v : List Nat) :
    (NEWLINE ∉ v ∧ 0 ∉ v) ∨
    (∃ a b, v = a ++ NEWLINE :: b ∧ NEWLINE ∉ a ∧ 0 ∉ a) ∨
    (∃ a b, v = a ++ 0 :: b ∧ NEWLINE ∉ a ∧ 0 ∉ a) := by
  induction v with
  | nil => exact Or.inl ⟨by simp, by simp⟩
  | cons x v ih =>
    by_cases hx : x = NEWLINE
    · exact Or.inr (Or.inl ⟨[], v, by simp [hx], by simp, by simp⟩)
    by_cases hx0 : x = 0
    · exact Or.inr (Or.inr ⟨[], v, by simp [hx0], by simp, by simp⟩)
    rcases ih with ⟨h1, h2⟩ | ⟨a, b, h, h1, h2⟩ | ⟨a, b, h, h1, h2⟩
    · exact Or.inl ⟨by simp [h1, Ne.symm hx], by simp [h2, Ne.symm hx0]⟩
    · exact Or.inr (Or.inl ⟨x :: a, b, by simp [h], by simp [h1, Ne.symm hx],
        by simp [h2, Ne.symm hx0]⟩)
    · exact Or.inr (Or.inr ⟨x :: a, b, by simp [h], by simp [h1, Ne.symm hx],
        by simp [h2, Ne.symm hx0]⟩)

theorem strchr_null_of_holds {buffer : List Nat} {n : Nat} {v : List Nat}
    (hH : Holds buffer n v)
    (hv : (NEWLINE ∉ v ∧ 0 ∉ v) ∨ ∃ a b, v = a ++ 0 :: b ∧ NEWLINE ∉ a ∧ 0 ∉ a) :
    strchr buffer NEWLINE = .null := by
  obtain ⟨_, _, t, h3⟩ := hH
  rcases hv with ⟨h1, h2⟩ | ⟨a, b, rfl, h1, h2⟩
  · rw [h3, strchr]
    exact strchr_from_null NEWLINE (by decide) v t h1 h2 0
  · rw [h3, strchr, List.append_assoc, List.cons_append]
    exact strchr_from_null NEWLINE (by decide) a _ h1 h2 0

theorem after_read_spec (s : State) (v bs : List Nat)
    (hB : Buffered s.buffer s.buffer_len v) (hlen : v.length + bs.length ≤ BUFFER_SIZE - 1) :
    ∃ buffer, after_read s bs = some ⟨buffer, v.length + bs.length, s.nwrites⟩ ∧
      Holds buffer (v.length + bs.length) (forced (v ++ bs)) := by
  obtain ⟨h1, h2, x, t, h3⟩ := hB
  have hlen1 : (v ++ x :: t).length = BUFFER_SIZE := h3 ▸ h1
  simp only [List.length_append, List.length_cons] at hlen1
  unfold BUFFER_SIZE at hlen hlen1
  have hdrop : ∃ y t2, (x :: t).drop bs.length = y :: t2 ∧
      t2.length = 1023 - (v.length + bs.length) := by
    have hl : ((x :: t).drop bs.length).length = 1024 - (v.length + bs.length) := by
      simp; omega
    cases hd : (x :: t).drop bs.length with
    | nil => rw [hd] at hl; simp at hl; omega
    | cons y t2 => rw [hd] at hl; simp at hl; exact ⟨y, t2, rfl, by omega⟩
  obtain ⟨y, t2, hd, ht2⟩ := hdrop
  have hadd : size_add v.length bs.length = v.length + bs.length :=
    size_add_eq (by unfold SIZE_MOD; omega)
  have hbuf1 : s.buffer.take s.buffer_len ++ bs ++ s.buffer.drop (s.buffer_len + bs.length)
      = (v ++ bs) ++ y :: t2 := by
    rw [h3, h2, List.take_left, List.drop_append, hd]
  have hst := store_at_length (v ++ bs) y t2 0
  rw [List.length_append] at hst
  unfold after_read
  have hfit : s.buffer_len + bs.length ≤ s.buffer.length := by rw [h1, h2]; unfold BUFFER_SIZE; omega
  simp only [hfit, if_true, hbuf1]
  rw [h2, hadd]
  simp only [hst]
  by_cases hfull : v.length + bs.length = 1023
  · have ht2nil : t2 = [] := List.length_eq_zero.mp (by omega)
    subst ht2nil
    have hsub : size_sub (v.length + bs.length) 1 = 1022 := by
      rw [size_sub_eq (by omega) (by unfold SIZE_MOD; omega)]; omega
    have hsplit : v ++ bs = (v ++ bs).take 1022 ++ (v ++ bs).drop 1022 := by
      rw [List.take_append_drop]
    have hdl : ((v ++ bs).drop 1022).length = 1 := by simp; omega
    obtain ⟨z, hz⟩ := List.length_eq_one.mp hdl
    have htl : ((v ++ bs).take 1022).length = 1022 := by simp; omega
    have hst2 : store (v ++ bs ++ [0]) 1022 NEWLINE
        = some ((v ++ bs).take 1022 ++ NEWLINE :: [0]) := by
      have hvb : v ++ bs ++ [0] = (v ++ bs).take 1022 ++ z :: [0] := by
        conv_lhs => rw [hsplit, hz]
        simp
      have := store_at_length ((v ++ bs).take 1022) z [0] NEWLINE
      rw [htl] at this
      rw [hvb]
      exact this
    rw [hfull] at hsub
    simp only [BUFFER_SIZE, hfull, hsub, if_true, hst2]
    refine ⟨_, rfl, ?_⟩
    refine ⟨?_, ?_, [], ?_⟩
    · simp [BUFFER_SIZE, htl]
    · simp [forced, BUFFER_SIZE, hfull, htl]
    · simp [forced, BUFFER_SIZE, hfull]
  · have hne : ¬ (v.length + bs.length = BUFFER_SIZE - 1) := by unfold BUFFER_SIZE; omega
    simp only [hne, if_false]
    refine ⟨_, rfl, ?_⟩
    refine ⟨?_, ?_, t2, ?_⟩
    · simp [BUFFER_SIZE]; omega
    · simp [forced, BUFFER_SIZE, hfull]
    · simp [forced, BUFFER_SIZE, hfull]

/-! ## Lemmas: the extraction loop -/

/-- One iteration of the inner loop on a buffer whose first line is `a ++ [NEWLINE]`. -/
theorem process_lines_step (verbose : Bool) (w : Nat → Nat → Int) (wfuel fuel : Nat)
    (s : State) (a b : List Nat)
    (hH : Holds s.buffer s.buffer_len (a ++ NEWLINE :: b)) (ha : NEWLINE ∉ a) (h0 : 0 ∉ a) :
    ∃ buffer, Holds buffer b.length b ∧
      process_lines verbose w wfuel (fuel + 1) s =
        (let ev := Event.line (a.length + 1) s.buffer_len ::
            (if verbose then [Event.printf (a ++ [NEWLINE])] else [])
         let r := write_all wfuel w s.nwrites s.buffer (a.length + 1)
         match r.ret with
         | none => ⟨ev ++ r.trace, { s with nwrites := r.calls }, .write_hang⟩
         | some ret =>
           if ret < 0 then
             ⟨ev ++ r.trace ++ [Event.perror_write], { s with nwrites := r.calls },
               .write_failed⟩
           else
             let next := process_lines verbose w wfuel fuel ⟨buffer, b.length, r.calls⟩
             ⟨ev ++ r.trace ++ next.trace, next.state, next.exit⟩) := by
  obtain ⟨h1, h2, t, h3⟩ := hH
  have hlen : (a ++ NEWLINE :: b ++ 0 :: t).length = BUFFER_SIZE := h3 ▸ h1
  simp only [List.length_append, List.length_cons] at hlen h2
  unfold BUFFER_SIZE at hlen
  have hstr : strchr s.buffer NEWLINE = .found a.length := by
    rw [h3, strchr, List.append_assoc, List.cons_append,
      strchr_from_found NEWLINE a _ ha h0 0, Nat.zero_add]
  have htake : s.buffer.take (a.length + 1) = a ++ [NEWLINE] := by
    rw [h3]
    have : a ++ NEWLINE :: b ++ 0 :: t = (a ++ [NEWLINE]) ++ (b ++ 0 :: t) := by simp
    rw [this, List.take_left' (by simp)]
  have hrem : size_sub s.buffer_len (a.length + 1) = b.length := by
    rw [size_sub_eq (by omega) (by unfold SIZE_MOD; omega)]; omega
  have hdropb : ∃ y t2, s.buffer.drop b.length = y :: t2 ∧ t2.length = 1023 - b.length := by
    have hl : (s.buffer.drop b.length).length = 1024 - b.length := by
      rw [List.length_drop, h1, BUFFER_SIZE]
    cases hd : s.buffer.drop b.length with
    | nil => rw [hd] at hl; simp at hl; omega
    | cons y t2 => rw [hd] at hl; simp at hl; exact ⟨y, t2, rfl, by omega⟩
  obtain ⟨y, t2, hd, ht2⟩ := hdropb
  have hmm : memmove_front s.buffer (a.length + 1) b.length = some (b ++ y :: t2) := by
    unfold memmove_front
    have hfit : a.length + 1 + b.length ≤ s.buffer.length := by rw [h1, BUFFER_SIZE]; omega
    rw [if_pos hfit, hd]
    congr 2
    rw [h3]
    have : a ++ NEWLINE :: b ++ 0 :: t = (a ++ [NEWLINE]) ++ (b ++ 0 :: t) := by simp
    rw [this, List.drop_left' (by simp), List.take_left]
  refine ⟨b ++ 0 :: t2, ⟨by simp [BUFFER_SIZE]; omega, rfl, t2, rfl⟩, ?_⟩
  rw [process_lines]
  simp only [hstr, htake, hrem, hmm, store_at_length]

theorem process_lines_null (verbose : Bool) (w : Nat → Nat → Int) (wfuel fuel : Nat)
    (s : State) (h : strchr s.buffer NEWLINE = .null) :
    process_lines verbose w wfuel (fuel + 1) s = ⟨[], s, .done⟩ := by
  rw [process_lines]
  simp only [h]

theorem process_lines_inv (verbose : Bool) (w : Nat → Nat → Int) (wfuel : Nat) :
    ∀ fuel v s, Holds s.buffer s.buffer_len v → v.length < fuel →
      (process_lines verbose w wfuel fuel s).exit ≠ .out_of_bounds ∧
      (process_lines verbose w wfuel fuel s).exit ≠ .fuel_out ∧
      (∃ v', Holds (process_lines verbose w wfuel fuel s).state.buffer
          (process_lines verbose w wfuel fuel s).state.buffer_len v' ∧ v'.length ≤ v.length) ∧
      reads_of (process_lines verbose w wfuel fuel s).trace = [] ∧
      ∀ e ∈ (process_lines verbose w wfuel fuel s).trace, e.bounds_ok := by
  intro fuel
  induction fuel with
  | zero => intro v s _ h; omega
  | succ fuel ih =>
    intro v s hH hfuel
    have hvlen := hH.buffered.length_lt
    rcases first_stop v with hnone | ⟨a, b, rfl, ha, h0⟩ | hnul
    · rw [process_lines_null _ _ _ _ _ (strchr_null_of_holds hH (Or.inl hnone))]
      exact ⟨by simp, by simp, ⟨v, hH, le_refl _⟩, rfl, by simp⟩
    · obtain ⟨buffer, hHb, hstep⟩ := process_lines_step verbose w wfuel fuel s a b hH ha h0
      rw [hstep]
      have hwt := write_all_loop_trace w s.buffer (a.length + 1) wfuel s.nwrites 0
      have hline : (Event.line (a.length + 1) s.buffer_len).bounds_ok := by
        have := hH.2.1
        simp only [List.length_append, List.length_cons] at this hvlen
        simp only [Event.bounds_ok]
        unfold BUFFER_SIZE at *
        unfold size_sub SIZE_MOD
        omega
      have hev : ∀ e ∈ (Event.line (a.length + 1) s.buffer_len ::
          (if verbose then [Event.printf (a ++ [NEWLINE])] else [])), e.bounds_ok := by
        intro e he
        cases verbose <;> simp at he
        · rw [he]; exact hline
        · rcases he with rfl | rfl
          · exact hline
          · trivial
      have hevr : reads_of (Event.line (a.length + 1) s.buffer_len ::
          (if verbose then [Event.printf (a ++ [NEWLINE])] else [])) = [] := by
        cases verbose <;> rfl
      simp only []
      split
      · refine ⟨by simp, by simp, ⟨_, hH, le_refl _⟩, ?_, ?_⟩
        · rw [reads_of_append, hevr]; exact hwt.1
        · intro e he
          rcases List.mem_append.mp he with h | h
          · exact hev e h
          · exact hwt.2 e h
      · split
        · refine ⟨by simp, by simp, ⟨_, hH, le_refl _⟩, ?_, ?_⟩
          · rw [reads_of_append, reads_of_append, hevr]
            simp only [List.nil_append, List.append_eq_nil]
            exact ⟨hwt.1, rfl⟩
          · intro e he
            rcases List.mem_append.mp he with h | h
            · rcases List.mem_append.mp h with h | h
              · exact hev e h
              · exact hwt.2 e h
            · simp at h; rw [h]; trivial
        · have hb : b.length < fuel := by
            simp only [List.length_append, List.length_cons] at hfuel
            omega
          obtain ⟨i1, i2, ⟨v', i3, i3'⟩, i4, i5⟩ := ih b ⟨buffer, b.length,
            (write_all wfuel w s.nwrites s.buffer (a.length + 1)).calls⟩ hHb hb
          refine ⟨i1, i2, ⟨v', i3, ?_⟩, ?_, ?_⟩
          · simp only [List.length_append, List.length_cons]; omega
          · rw [reads_of_append, reads_of_append, hevr, i4]
            simp only [List.nil_append, List.append_nil]
            exact hwt.1
          · intro e he
            rcases List.mem_append.mp he with h | h
            · rcases List.mem_append.mp h with h | h
              · exact hev e h
              · exact hwt.2 e h
            · exact i5 e h
    · rw [process_lines_null _ _ _ _ _ (strchr_null_of_holds hH (Or.inr hnul))]
      exact ⟨by simp, by simp, ⟨v, hH, le_refl _⟩, rfl, by simp⟩

theorem process_lines_good {w : Nat → Nat → Int} (hw : GoodWrites w) (verbose : Bool)
    (wfuel : Nat) (hwf : BUFFER_SIZE ≤ wfuel) :
    ∀ fuel v s, Holds s.buffer s.buffer_len v → 0 ∉ v → v.length < fuel →
      (process_lines verbose w wfuel fuel s).exit = .done ∧
      Holds (process_lines verbose w wfuel fuel s).state.buffer
        (process_lines verbose w wfuel fuel s).state.buffer_len (unterminated v) ∧
      echoed (process_lines verbose w wfuel fuel s).trace = longestLinePrefix v := by
  intro fuel
  induction fuel with
  | zero => intro v s _ _ h; omega
  | succ fuel ih =>
    intro v s hH hv0 hfuel
    have hvlen := hH.buffered.length_lt
    rcases first_stop v with hnone | ⟨a, b, rfl, ha, h0⟩ | ⟨a, b, rfl, _, _⟩
    · rw [process_lines_null _ _ _ _ _ (strchr_null_of_holds hH (Or.inl hnone))]
      have hl := longestLinePrefix_of_not_mem hnone.1
      refine ⟨rfl, ?_, by rw [hl]; rfl⟩
      simpa [unterminated, hl] using hH
    · obtain ⟨buffer, hHb, hstep⟩ := process_lines_step verbose w wfuel fuel s a b hH ha h0
      rw [hstep]
      simp only [List.length_append, List.length_cons] at hvlen hfuel
      unfold BUFFER_SIZE at hvlen hwf
      obtain ⟨hret, _, hech⟩ := write_all_loop_good hw s.buffer (a.length + 1)
        (by unfold SSIZE_MAX; omega) wfuel s.nwrites 0 (Nat.zero_le _) (by omega)
      have htake : s.buffer.take (a.length + 1) = a ++ [NEWLINE] := by
        obtain ⟨_, _, t, h3⟩ := hH
        rw [h3]
        have : a ++ NEWLINE :: b ++ 0 :: t = (a ++ [NEWLINE]) ++ (b ++ 0 :: t) := by simp
        rw [this, List.take_left' (by simp)]
      have hb0 : 0 ∉ b := fun h => hv0 (by simp [h])
      obtain ⟨i1, i2, i3⟩ := ih b ⟨buffer, b.length,
        (write_all wfuel w s.nwrites s.buffer (a.length + 1)).calls⟩ hHb hb0 (by omega)
      have hnn : ¬ (((a.length + 1 : Nat) : Int) < 0) := by omega
      simp only [write_all, hret, hnn, if_false]
      rw [(lines_cons a b).1, (lines_cons a b).2]
      refine ⟨i1, i2, ?_⟩
      rw [echoed_append, echoed_append]
      simp only [write_all] at i3
      rw [i3, hech, List.drop_zero, htake]
      cases verbose <;> simp [echoed, Event.sent]
    · exact absurd (by simp) hv0

theorem process_lines_conserve {w : Nat → Nat → Int} (hw : GoodWrites w) (verbose : Bool)
    (wfuel : Nat) (hwf : BUFFER_SIZE ≤ wfuel) :
    ∀ fuel v s, Holds s.buffer s.buffer_len v → v.length < fuel →
      (process_lines verbose w wfuel fuel s).exit = .done ∧
      ∃ v', Holds (process_lines verbose w wfuel fuel s).state.buffer
          (process_lines verbose w wfuel fuel s).state.buffer_len v' ∧
        echoed (process_lines verbose w wfuel fuel s).trace ++ v' = v := by
  intro fuel
  induction fuel with
  | zero => intro v s _ h; omega
  | succ fuel ih =>
    intro v s hH hfuel
    have hvlen := hH.buffered.length_lt
    rcases first_stop v with hnone | ⟨a, b, rfl, ha, h0⟩ | hnul
    · rw [process_lines_null _ _ _ _ _ (strchr_null_of_holds hH (Or.inl hnone))]
      exact ⟨rfl, v, hH, rfl⟩
    · obtain ⟨buffer, hHb, hstep⟩ := process_lines_step verbose w wfuel fuel s a b hH ha h0
      rw [hstep]
      simp only [List.length_append, List.length_cons] at hvlen hfuel
      unfold BUFFER_SIZE at hvlen hwf
      obtain ⟨hret, _, hech⟩ := write_all_loop_good hw s.buffer (a.length + 1)
        (by unfold SSIZE_MAX; omega) wfuel s.nwrites 0 (Nat.zero_le _) (by omega)
      have htake : s.buffer.take (a.length + 1) = a ++ [NEWLINE] := by
        obtain ⟨_, _, t, h3⟩ := hH
        rw [h3]
        have : a ++ NEWLINE :: b ++ 0 :: t = (a ++ [NEWLINE]) ++ (b ++ 0 :: t) := by simp
        rw [this, List.take_left' (by simp)]
      obtain ⟨i1, v', i2, i3⟩ := ih b ⟨buffer, b.length,
        (write_all wfuel w s.nwrites s.buffer (a.length + 1)).calls⟩ hHb (by omega)
      have hnn : ¬ (((a.length + 1 : Nat) : Int) < 0) := by omega
      simp only [write_all, hret, hnn, if_false]
      refine ⟨i1, v', i2, ?_⟩
      rw [echoed_append, echoed_append]
      simp only [write_all] at i3
      rw [hech, List.drop_zero, htake, List.append_assoc, i3]
      cases verbose <;> simp [echoed, Event.sent]
    · rw [process_lines_null _ _ _ _ _ (strchr_null_of_holds hH (Or.inr hnul))]
      exact ⟨rfl, v, hH, rfl⟩

/-! ## Lemmas: the read loop -/

theorem serve_nil (verbose : Bool) (w : Nat → Nat → Int) (fuel : Nat) (s : State) :
    serve verbose w fuel s [] = ⟨[], s, .blocked⟩ := by
  rw [serve]

theorem serve_error (verbose : Bool) (w : Nat → Nat → Int) (fuel : Nat) (s : State)
    (rs : List ReadResult) :
    serve verbose w fuel s (.error :: rs) =
      ⟨[Event.read s.buffer_len (size_sub (size_sub BUFFER_SIZE s.buffer_len) 1) .error,
        Event.perror_read], s, .read_error⟩ := by
  rw [serve]

theorem serve_bad_read (verbose : Bool) (w : Nat → Nat → Int) (fuel : Nat) (s : State)
    (bs : List Nat) (rs : List ReadResult)
    (h : size_sub (size_sub BUFFER_SIZE s.buffer_len) 1 < bs.length) :
    serve verbose w fuel s (.data bs :: rs) =
      ⟨[Event.read s.buffer_len (size_sub (size_sub BUFFER_SIZE s.buffer_len) 1) (.data bs)],
        s, .bad_read⟩ := by
  rw [serve]
  simp only [h, if_true]

theorem serve_eof (verbose : Bool) (w : Nat → Nat → Int) (fuel : Nat) (s : State)
    (rs : List ReadResult) :
    serve verbose w fuel s (.data [] :: rs) =
      ⟨[Event.read s.buffer_len (size_sub (size_sub BUFFER_SIZE s.buffer_len) 1) (.data [])],
        s, .eof⟩ := by
  rw [serve]
  simp

theorem serve_data (verbose : Bool) (w : Nat → Nat → Int) (fuel : Nat) (s s1 : State)
    (bs : List Nat) (rs : List ReadResult)
    (h1 : ¬ size_sub (size_sub BUFFER_SIZE s.buffer_len) 1 < bs.length) (h2 : bs ≠ [])
    (h3 : after_read s bs = some s1)
    (h4 : (process_lines verbose w fuel fuel s1).exit = .done ∨
      (process_lines verbose w fuel fuel s1).exit = .write_failed) :
    serve verbose w fuel s (.data bs :: rs) =
      (serve verbose w fuel (process_lines verbose w fuel fuel s1).state rs).after
        (Event.read s.buffer_len (size_sub (size_sub BUFFER_SIZE s.buffer_len) 1) (.data bs)
          :: (process_lines verbose w fuel fuel s1).trace) := by
  rw [serve]
  have h2' : ¬ bs.length = 0 := fun h => h2 (List.length_eq_zero.mp h)
  simp only [h1, h2', if_false, h3]
  rcases h4 with h | h <;> rw [h] <;> rfl

theorem serve_data_eq (verbose : Bool) (w : Nat → Nat → Int) (fuel : Nat) (s s1 : State)
    (bs : List Nat) (rs : List ReadResult)
    (h1 : ¬ size_sub (size_sub BUFFER_SIZE s.buffer_len) 1 < bs.length) (h2 : bs ≠ [])
    (h3 : after_read s bs = some s1) :
    serve verbose w fuel s (.data bs :: rs) =
      match (process_lines verbose w fuel fuel s1).exit with
      | .done | .write_failed =>
        (serve verbose w fuel (process_lines verbose w fuel fuel s1).state rs).after
          (Event.read s.buffer_len (size_sub (size_sub BUFFER_SIZE s.buffer_len) 1) (.data bs)
            :: (process_lines verbose w fuel fuel s1).trace)
      | .out_of_bounds =>
        ⟨Event.read s.buffer_len (size_sub (size_sub BUFFER_SIZE s.buffer_len) 1) (.data bs)
            :: (process_lines verbose w fuel fuel s1).trace,
          (process_lines verbose w fuel fuel s1).state, .out_of_bounds⟩
      | .write_hang =>
        ⟨Event.read s.buffer_len (size_sub (size_sub BUFFER_SIZE s.buffer_len) 1) (.data bs)
            :: (process_lines verbose w fuel fuel s1).trace,
          (process_lines verbose w fuel fuel s1).state, .write_hang⟩
      | .fuel_out =>
        ⟨Event.read s.buffer_len (size_sub (size_sub BUFFER_SIZE s.buffer_len) 1) (.data bs)
            :: (process_lines verbose w fuel fuel s1).trace,
          (process_lines verbose w fuel fuel s1).state, .loop_hang⟩ := by
  rw [serve]
  have h2' : ¬ bs.length = 0 := fun h => h2 (List.length_eq_zero.mp h)
  simp only [h1, h2', if_false, h3]
  cases (process_lines verbose w fuel fuel s1).exit <;> rfl

theorem serve_step_good {w : Nat → Nat → Int} (hw : GoodWrites w) (verbose : Bool)
    (fuel : Nat) (hfuel : BUFFER_SIZE ≤ fuel) (s : State) (v bs : List Nat)
    (hB : Buffered s.buffer s.buffer_len v) (hv0 : 0 ∉ v) (hbs0 : 0 ∉ bs) (hne : bs ≠ [])
    (hlen : v.length + bs.length ≤ BUFFER_SIZE - 1) :
    ∃ tr s', Holds s'.buffer s'.buffer_len (unterminated (forced (v ++ bs))) ∧
      echoed tr = longestLinePrefix (forced (v ++ bs)) ∧
      reads_of tr = [(v.length, BUFFER_SIZE - 1 - v.length, .data bs)] ∧
      (∀ e ∈ tr, e.bounds_ok) ∧
      ∀ rs, serve verbose w fuel s (.data bs :: rs) = (serve verbose w fuel s' rs).after tr := by
  obtain ⟨buffer, har, hH⟩ := after_read_spec s v bs hB hlen
  have hvl := hB.length_lt
  have hsl := hB.2.1
  have hcount : size_sub (size_sub BUFFER_SIZE s.buffer_len) 1 = BUFFER_SIZE - 1 - v.length := by
    rw [hsl]; exact read_count hvl
  have h0 : 0 ∉ forced (v ++ bs) := zero_not_mem_forced (by
    intro h; rcases List.mem_append.mp h with h | h
    · exact hv0 h
    · exact hbs0 h)
  have hfl : (forced (v ++ bs)).length < fuel := by
    rw [forced_length, List.length_append]
    unfold BUFFER_SIZE at *
    omega
  obtain ⟨g1, g2, g3⟩ := process_lines_good hw verbose fuel hfuel fuel (forced (v ++ bs))
    ⟨buffer, v.length + bs.length, s.nwrites⟩ hH h0 hfl
  obtain ⟨_, _, _, i4, i5⟩ := process_lines_inv verbose w fuel fuel (forced (v ++ bs))
    ⟨buffer, v.length + bs.length, s.nwrites⟩ hH hfl
  have hnlt : ¬ size_sub (size_sub BUFFER_SIZE s.buffer_len) 1 < bs.length := by
    rw [hcount]; omega
  refine ⟨_, _, g2, ?_, ?_, ?_, fun rs => serve_data verbose w fuel s _ bs rs hnlt hne har (Or.inl g1)⟩
  · simpa [echoed, Event.sent] using g3
  · rw [reads_of, i4, hcount, hsl]
  · intro e he
    rcases List.mem_cons.mp he with rfl | he
    · rw [hcount, hsl]
      exact ⟨by omega, rfl⟩
    · exact i5 e he

theorem serve_step_conserve {w : Nat → Nat → Int} (hw : GoodWrites w) (verbose : Bool)
    (fuel : Nat) (hfuel : BUFFER_SIZE ≤ fuel) (s : State) (v bs : List Nat)
    (hB : Buffered s.buffer s.buffer_len v) (hne : bs ≠ [])
    (hlen : v.length + bs.length ≤ BUFFER_SIZE - 1) :
    ∃ tr s' v', Holds s'.buffer s'.buffer_len v' ∧
      echoed tr ++ v' = forced (v ++ bs) ∧
      ∀ rs, serve verbose w fuel s (.data bs :: rs) = (serve verbose w fuel s' rs).after tr := by
  obtain ⟨buffer, har, hH⟩ := after_read_spec s v bs hB hlen
  have hvl := hB.length_lt
  have hsl := hB.2.1
  have hcount : size_sub (size_sub BUFFER_SIZE s.buffer_len) 1 = BUFFER_SIZE - 1 - v.length := by
    rw [hsl]; exact read_count hvl
  have hfl : (forced (v ++ bs)).length < fuel := by
    rw [forced_length, List.length_append]
    unfold BUFFER_SIZE at *
    omega
  obtain ⟨g1, v', g2, g3⟩ := process_lines_conserve hw verbose fuel hfuel fuel
    (forced (v ++ bs)) ⟨buffer, v.length + bs.length, s.nwrites⟩ hH hfl
  have hnlt : ¬ size_sub (size_sub BUFFER_SIZE s.buffer_len) 1 < bs.length := by
    rw [hcount]; omega
  refine ⟨_, _, v', g2, ?_,
    fun rs => serve_data verbose w fuel s _ bs rs hnlt hne har (Or.inl g1)⟩
  simpa [echoed, Event.sent] using g3

theorem serve_inv (verbose : Bool) (w : Nat → Nat → Int) (fuel : Nat)
    (hfuel : BUFFER_SIZE ≤ fuel) :
    ∀ reads s v, Buffered s.buffer s.buffer_len v →
      (serve verbose w fuel s reads).status ≠ .out_of_bounds ∧
      (serve verbose w fuel s reads).status ≠ .loop_hang ∧
      (∃ v', Buffered (serve verbose w fuel s reads).final.buffer
        (serve verbose w fuel s reads).final.buffer_len v') ∧
      ∀ e ∈ (serve verbose w fuel s reads).trace, e.bounds_ok := by
  intro reads
  induction reads with
  | nil =>
    intro s v hB
    rw [serve_nil]
    exact ⟨by simp, by simp, ⟨v, hB⟩, by simp⟩
  | cons r rs ih =>
    intro s v hB
    have hvl := hB.length_lt
    have hsl := hB.2.1
    have hcount : size_sub (size_sub BUFFER_SIZE s.buffer_len) 1 = BUFFER_SIZE - 1 - v.length := by
      rw [hsl]; exact read_count hvl
    have hread : ∀ res, (Event.read s.buffer_len
        (size_sub (size_sub BUFFER_SIZE s.buffer_len) 1) res).bounds_ok := by
      intro res
      rw [hcount, hsl]
      exact ⟨by omega, rfl⟩
    cases r with
    | error =>
      rw [serve_error]
      refine ⟨by simp, by simp, ⟨v, hB⟩, ?_⟩
      intro e he
      simp only [List.mem_cons, List.mem_singleton, List.not_mem_nil, or_false] at he
      rcases he with rfl | rfl
      · exact hread _
      · trivial
    | data bs =>
      by_cases hbad : size_sub (size_sub BUFFER_SIZE s.buffer_len) 1 < bs.length
      · rw [serve_bad_read _ _ _ _ _ _ hbad]
        refine ⟨by simp, by simp, ⟨v, hB⟩, ?_⟩
        intro e he
        simp only [List.mem_singleton] at he
        rw [he]; exact hread _
      by_cases hnil : bs = []
      · subst hnil
        rw [serve_eof]
        refine ⟨by simp, by simp, ⟨v, hB⟩, ?_⟩
        intro e he
        simp only [List.mem_singleton] at he
        rw [he]; exact hread _
      have hlen : v.length + bs.length ≤ BUFFER_SIZE - 1 := by
        rw [hcount] at hbad; omega
      obtain ⟨buffer, har, hH⟩ := after_read_spec s v bs hB hlen
      have hfl : (forced (v ++ bs)).length < fuel := by
        rw [forced_length, List.length_append]
        unfold BUFFER_SIZE at *
        omega
      obtain ⟨i1, i2, ⟨v', i3, _⟩, _, i5⟩ := process_lines_inv verbose w fuel fuel
        (forced (v ++ bs)) ⟨buffer, v.length + bs.length, s.nwrites⟩ hH hfl
      have hev : ∀ e ∈ Event.read s.buffer_len
          (size_sub (size_sub BUFFER_SIZE s.buffer_len) 1) (.data bs) ::
          (process_lines verbose w fuel fuel
            ⟨buffer, v.length + bs.length, s.nwrites⟩).trace, e.bounds_ok := by
        intro e he
        rcases List.mem_cons.mp he with rfl | he
        · exact hread _
        · exact i5 e he
      rw [serve_data_eq verbose w fuel s _ bs rs hbad hnil har]
      obtain ⟨j1, j2, j3, j4⟩ := ih (process_lines verbose w fuel fuel
        ⟨buffer, v.length + bs.length, s.nwrites⟩).state v' i3.buffered
      cases hexit : (process_lines verbose w fuel fuel
          ⟨buffer, v.length + bs.length, s.nwrites⟩).exit with
      | done =>
        refine ⟨j1, j2, j3, ?_⟩
        intro e he
        rcases List.mem_append.mp he with h | h
        · exact hev e h
        · exact j4 e h
      | write_failed =>
        refine ⟨j1, j2, j3, ?_⟩
        intro e he
        rcases List.mem_append.mp he with h | h
        · exact hev e h
        · exact j4 e h
      | out_of_bounds => exact absurd hexit i1
      | write_hang => exact ⟨by simp, by simp, ⟨v', i3.buffered⟩, hev⟩
      | fuel_out => exact absurd hexit i2

theorem serve_append (verbose : Bool) (w : Nat → Nat → Int) (fuel : Nat) :
    ∀ r1 s r2, (serve verbose w fuel s r1).status = .blocked →
      serve verbose w fuel s (r1 ++ r2) =
        (serve verbose w fuel (serve verbose w fuel s r1).final r2).after
          (serve verbose w fuel s r1).trace := by
  intro r1
  induction r1 with
  | nil =>
    intro s r2 _
    rw [serve_nil, List.nil_append, Result.after_nil]
  | cons r rs ih =>
    intro s r2 hst
    cases r with
    | error => rw [serve_error] at hst; cases hst
    | data bs =>
      by_cases hbad : size_sub (size_sub BUFFER_SIZE s.buffer_len) 1 < bs.length
      · rw [serve_bad_read _ _ _ _ _ _ hbad] at hst; cases hst
      by_cases hnil : bs = []
      · subst hnil; rw [serve_eof] at hst; cases hst
      cases har : after_read s bs with
      | none =>
        rw [serve] at hst
        have h2' : ¬ bs.length = 0 := fun h => hnil (List.length_eq_zero.mp h)
        simp only [hbad, h2', if_false, har] at hst
        cases hst
      | some s1 =>
        rw [serve_data_eq verbose w fuel s s1 bs rs hbad hnil har] at hst ⊢
        rw [List.cons_append, serve_data_eq verbose w fuel s s1 bs (rs ++ r2) hbad hnil har]
        cases hexit : (process_lines verbose w fuel fuel s1).exit with
        | done =>
          rw [hexit] at hst
          simp only [] at hst ⊢
          rw [ih _ r2 hst, Result.after_after]
          simp [Result.after]
        | write_failed =>
          rw [hexit] at hst
          simp only [] at hst ⊢
          rw [ih _ r2 hst, Result.after_after]
          simp [Result.after]
        | out_of_bounds => rw [hexit] at hst; cases hst
        | write_hang => rw [hexit] at hst; cases hst
        | fuel_out => rw [hexit] at hst; cases hst

theorem serve_chunks_good {w : Nat → Nat → Int} (hw : GoodWrites w) (verbose : Bool)
    (fuel : Nat) (hfuel : BUFFER_SIZE ≤ fuel) :
    ∀ (chunks : List (List Nat)) (s : State) (v : List Nat),
      Buffered s.buffer s.buffer_len v → 0 ∉ v → NEWLINE ∉ v →
      (∀ c ∈ chunks, c ≠ []) → (∀ c ∈ chunks, 0 ∉ c) →
      never_full (serve verbose w fuel s (chunks.map .data)).trace →
      (serve verbose w fuel s (chunks.map .data)).status = .blocked ∧
      echoed (serve verbose w fuel s (chunks.map .data)).trace
        = longestLinePrefix (v ++ chunks.flatten) ∧
      Buffered (serve verbose w fuel s (chunks.map .data)).final.buffer
        (serve verbose w fuel s (chunks.map .data)).final.buffer_len
        (unterminated (v ++ chunks.flatten)) := by
  intro chunks
  induction chunks with
  | nil =>
    intro s v hB _ hvn _ _ _
    have hl := longestLinePrefix_of_not_mem hvn
    simp only [List.map_nil, serve_nil, List.flatten_nil, List.append_nil, hl, unterminated,
      List.length_nil, List.drop_zero]
    exact ⟨trivial, rfl, hB⟩
  | cons bs cs ih =>
    intro s v hB hv0 _ hne hnul hnf
    have hvl := hB.length_lt
    have hsl := hB.2.1
    have hcount : size_sub (size_sub BUFFER_SIZE s.buffer_len) 1 = BUFFER_SIZE - 1 - v.length := by
      rw [hsl]; exact read_count hvl
    have hbsne : bs ≠ [] := hne bs (List.mem_cons_self _ _)
    have hbs0 : 0 ∉ bs := hnul bs (List.mem_cons_self _ _)
    rw [List.map_cons] at hnf ⊢
    have hlen : v.length + bs.length ≤ BUFFER_SIZE - 1 := by
      by_contra hcon
      have hbad : size_sub (size_sub BUFFER_SIZE s.buffer_len) 1 < bs.length := by
        rw [hcount]; omega
      rw [serve_bad_read _ _ _ _ _ _ hbad] at hnf
      have := hnf (s.buffer_len, size_sub (size_sub BUFFER_SIZE s.buffer_len) 1, .data bs)
        (by simp [reads_of])
      simp only [ReadResult.length, hsl] at this
      omega
    obtain ⟨tr, s', hH, hech, hreads, _, hserve⟩ :=
      serve_step_good hw verbose fuel hfuel s v bs hB hv0 hbs0 hbsne hlen
    rw [hserve] at hnf ⊢
    simp only [Result.after] at hnf ⊢
    have hlt : (v ++ bs).length < BUFFER_SIZE - 1 := by
      have := hnf (v.length, BUFFER_SIZE - 1 - v.length, .data bs)
        (by rw [reads_of_append, hreads]; simp)
      simpa [ReadResult.length] using this
    rw [forced_of_lt hlt] at hH hech
    have hnf' : never_full (serve verbose w fuel s' (cs.map .data)).trace := by
      intro x hx
      exact hnf x (by rw [reads_of_append]; exact List.mem_append_right _ hx)
    obtain ⟨g1, g2, g3⟩ := ih s' (unterminated (v ++ bs)) hH.buffered
      (zero_not_mem_unterminated (zero_not_mem_append hv0 hbs0)) (not_mem_unterminated _)
      (fun c hc => hne c (List.mem_cons_of_mem _ hc))
      (fun c hc => hnul c (List.mem_cons_of_mem _ hc)) hnf'
    have happ := longestLinePrefix_append (v ++ bs) cs.flatten
    refine ⟨g1, ?_, ?_⟩
    · rw [echoed_append, hech, g2, List.flatten_cons, ← List.append_assoc, happ.1]
    · rw [List.flatten_cons, ← List.append_assoc, happ.2]
      exact g3

theorem serve_fill {w : Nat → Nat → Int} (hw : GoodWrites w) (verbose : Bool)
    (fuel : Nat) (hfuel : BUFFER_SIZE ≤ fuel) :
    ∀ (pre : List (List Nat)) (s : State) (v : List Nat),
      Buffered s.buffer s.buffer_len v → 0 ∉ v → NEWLINE ∉ v →
      (∀ c ∈ pre, c ≠ []) → (∀ c ∈ pre, 0 ∉ c) → (∀ c ∈ pre, NEWLINE ∉ c) →
      pre ≠ [] → v.length + pre.flatten.length = BUFFER_SIZE - 1 →
      ∃ tr s', s'.buffer_len = 0 ∧ Buffered s'.buffer s'.buffer_len [] ∧
        echoed tr = (v ++ pre.flatten).take (BUFFER_SIZE - 2) ++ [NEWLINE] ∧
        (∀ e ∈ tr, e.bounds_ok) ∧
        ∀ rs, serve verbose w fuel s (pre.map .data ++ rs)
          = (serve verbose w fuel s' rs).after tr := by
  intro pre
  induction pre with
  | nil => intro s v _ _ _ _ _ _ h; exact absurd rfl h
  | cons bs cs ih =>
    intro s v hB hv0 hvn hne hnul hnl _ htot
    have hbsne : bs ≠ [] := hne bs (List.mem_cons_self _ _)
    have hbs0 : 0 ∉ bs := hnul bs (List.mem_cons_self _ _)
    have hbsn : NEWLINE ∉ bs := hnl bs (List.mem_cons_self _ _)
    rw [List.flatten_cons, List.length_append] at htot
    obtain ⟨tr, s', hH, hech, _, hbo, hserve⟩ :=
      serve_step_good hw verbose fuel hfuel s v bs hB hv0 hbs0 hbsne (by omega)
    have hvbn : NEWLINE ∉ v ++ bs := by
      intro h
      rcases List.mem_append.mp h with h | h
      · exact hvn h
      · exact hbsn h
    cases cs with
    | nil =>
      simp only [List.flatten_nil, List.length_nil, Nat.add_zero, List.append_nil] at htot ⊢
      have hfull : (v ++ bs).length = BUFFER_SIZE - 1 := by rw [List.length_append]; exact htot
      obtain ⟨f1, f2⟩ := unterminated_forced_full hfull
      rw [f2] at hH
      rw [f1] at hech
      refine ⟨tr, s', hH.2.1, hH.buffered, ?_, hbo, ?_⟩
      · rw [hech]; simp [forced, hfull]
      · intro rs
        simpa using hserve rs
    | cons c cs =>
      have hcne : c ≠ [] := hne c (by simp)
      have hcl : 1 ≤ c.length := List.length_pos.mpr hcne
      have hjl : 1 ≤ (c :: cs).flatten.length := by
        rw [List.flatten_cons, List.length_append]; omega
      have hlt : (v ++ bs).length < BUFFER_SIZE - 1 := by
        rw [List.length_append]; omega
      rw [forced_of_lt hlt] at hH hech
      have hl := longestLinePrefix_of_not_mem hvbn
      have hu : unterminated (v ++ bs) = v ++ bs := by simp [unterminated, hl]
      rw [hu] at hH
      rw [hl] at hech
      obtain ⟨tr2, s'', g1, g2, g3, g4, g5⟩ := ih s' (v ++ bs) hH.buffered
        (zero_not_mem_append hv0 hbs0) hvbn
        (fun c hc => hne c (List.mem_cons_of_mem _ hc))
        (fun c hc => hnul c (List.mem_cons_of_mem _ hc))
        (fun c hc => hnl c (List.mem_cons_of_mem _ hc))
        (by simp) (by rw [List.length_append]; omega)
      refine ⟨tr ++ tr2, s'', g1, g2, ?_, ?_, ?_⟩
      · rw [echoed_append, hech, g3, List.nil_append, List.flatten_cons (l := bs),
          List.append_assoc]
      · intro e he
        rcases List.mem_append.mp he with h | h
        · exact hbo e h
        · exact g4 e h
      · intro rs
        rw [List.map_cons, List.cons_append, hserve, g5, Result.after_after]

theorem serve_aligned {w : Nat → Nat → Int} (hw : GoodWrites w) (verbose : Bool)
    (fuel : Nat) (hfuel : BUFFER_SIZE ≤ fuel) :
    ∀ (chunks : List (List Nat)) (s : State) (v : List Nat),
      Buffered s.buffer s.buffer_len v → 0 ∉ v → NEWLINE ∉ v →
      v.length < BUFFER_SIZE - 1 → (∀ c ∈ chunks, c ≠ []) →
      BUFFER_SIZE - 1 ≤ v.length + chunks.flatten.length →
      (∀ b ∈ chunks.flatten.take (BUFFER_SIZE - 1 - v.length), b ≠ 0 ∧ b ≠ NEWLINE) →
      (serve verbose w fuel s (chunks.map .data)).status ≠ .bad_read →
      ∃ pre rest, chunks = pre ++ rest ∧ pre ≠ [] ∧
        v.length + pre.flatten.length = BUFFER_SIZE - 1 := by
  intro chunks
  induction chunks with
  | nil =>
    intro s v _ _ _ hlt _ hlen _ _
    simp only [List.flatten_nil, List.length_nil, Nat.add_zero] at hlen
    omega
  | cons bs cs ih =>
    intro s v hB hv0 hvn hlt hne hlen hclean hst
    have hvl := hB.length_lt
    have hsl := hB.2.1
    have hcount : size_sub (size_sub BUFFER_SIZE s.buffer_len) 1 = BUFFER_SIZE - 1 - v.length := by
      rw [hsl]; exact read_count hvl
    have hbsne : bs ≠ [] := hne bs (List.mem_cons_self _ _)
    rw [List.map_cons] at hst
    have hfit : v.length + bs.length ≤ BUFFER_SIZE - 1 := by
      by_contra hcon
      have hbad : size_sub (size_sub BUFFER_SIZE s.buffer_len) 1 < bs.length := by
        rw [hcount]; omega
      rw [serve_bad_read _ _ _ _ _ _ hbad] at hst
      exact hst rfl
    by_cases hfull : v.length + bs.length = BUFFER_SIZE - 1
    · exact ⟨[bs], cs, rfl, by simp, by simpa using hfull⟩
    · have hbsclean : ∀ b ∈ bs, b ≠ 0 ∧ b ≠ NEWLINE := by
        intro b hb
        apply hclean b
        rw [List.flatten_cons, List.take_append_eq_append_take]
        apply List.mem_append_left
        rw [List.take_of_length_le (by omega)]
        exact hb
      have hbs0 : 0 ∉ bs := fun h => (hbsclean 0 h).1 rfl
      have hbsn : NEWLINE ∉ bs := fun h => (hbsclean NEWLINE h).2 rfl
      have hvbn : NEWLINE ∉ v ++ bs := by
        intro h
        rcases List.mem_append.mp h with h | h
        · exact hvn h
        · exact hbsn h
      obtain ⟨tr, s', hH, _, _, _, hserve⟩ :=
        serve_step_good hw verbose fuel hfuel s v bs hB hv0 hbs0 hbsne hfit
      have hltvb : (v ++ bs).length < BUFFER_SIZE - 1 := by
        rw [List.length_append]; omega
      rw [forced_of_lt hltvb] at hH
      have hu : unterminated (v ++ bs) = v ++ bs := by
        simp [unterminated, longestLinePrefix_of_not_mem hvbn]
      rw [hu] at hH
      rw [hserve] at hst
      obtain ⟨pre, rest, h1, _, h3⟩ := ih s' (v ++ bs) hH.buffered
        (zero_not_mem_append hv0 hbs0) hvbn hltvb
        (fun c hc => hne c (List.mem_cons_of_mem _ hc))
        (by rw [List.flatten_cons, List.length_append] at hlen
            rw [List.length_append]; omega)
        (by
          intro b hb
          apply hclean b
          rw [List.flatten_cons, List.take_append_eq_append_take]
          apply List.mem_append_right
          rw [List.length_append] at hb
          have : BUFFER_SIZE - 1 - v.length - bs.length
              = BUFFER_SIZE - 1 - (v.length + bs.length) := by omega
          rw [this]
          exact hb)
        hst
      refine ⟨bs :: pre, rest, by rw [h1, List.cons_append], by simp, ?_⟩
      rw [List.flatten_cons, List.length_append]
      rw [List.length_append] at h3
      omega

theorem serve_reads_positive {w : Nat → Nat → Int} (hw : GoodWrites w) (verbose : Bool)
    (fuel : Nat) (hfuel : BUFFER_SIZE ≤ fuel) :
    ∀ (reads : List ReadResult) (s : State) (v : List Nat),
      Buffered s.buffer s.buffer_len v → 0 ∉ v → v.length < BUFFER_SIZE - 1 →
      (∀ bs, ReadResult.data bs ∈ reads → 0 ∉ bs) →
      (∀ x ∈ reads_of (serve verbose w fuel s reads).trace, 1 ≤ x.2.1) ∧
      (serve verbose w fuel s reads).final.buffer_len < BUFFER_SIZE - 1 := by
  intro reads
  induction reads with
  | nil =>
    intro s v hB _ hlt _
    rw [serve_nil]
    exact ⟨by simp [reads_of], by rw [hB.2.1]; exact hlt⟩
  | cons r rs ih =>
    intro s v hB hv0 hlt hnul
    have hvl := hB.length_lt
    have hsl := hB.2.1
    have hcount : size_sub (size_sub BUFFER_SIZE s.buffer_len) 1 = BUFFER_SIZE - 1 - v.length := by
      rw [hsl]; exact read_count hvl
    have hpos : 1 ≤ BUFFER_SIZE - 1 - v.length := by omega
    cases r with
    | error =>
      rw [serve_error, hcount]
      exact ⟨by simp [reads_of]; exact hpos, by rw [hsl]; exact hlt⟩
    | data bs =>
      by_cases hbad : size_sub (size_sub BUFFER_SIZE s.buffer_len) 1 < bs.length
      · rw [serve_bad_read _ _ _ _ _ _ hbad, hcount]
        exact ⟨by simp [reads_of]; exact hpos, by rw [hsl]; exact hlt⟩
      by_cases hnil : bs = []
      · subst hnil
        rw [serve_eof, hcount]
        exact ⟨by simp [reads_of]; exact hpos, by rw [hsl]; exact hlt⟩
      have hlen : v.length + bs.length ≤ BUFFER_SIZE - 1 := by
        rw [hcount] at hbad; omega
      have hbs0 : 0 ∉ bs := hnul bs (List.mem_cons_self _ _)
      obtain ⟨tr, s', hH, _, hreads, _, hserve⟩ :=
        serve_step_good hw verbose fuel hfuel s v bs hB hv0 hbs0 hnil hlen
      have hshort : (unterminated (forced (v ++ bs))).length < BUFFER_SIZE - 1 := by
        by_cases hfull : (v ++ bs).length = BUFFER_SIZE - 1
        · rw [(unterminated_forced_full hfull).2]
          simp [BUFFER_SIZE]
        · have := unterminated_length_le (forced (v ++ bs))
          rw [forced_length] at this
          rw [List.length_append] at this hfull
          omega
      obtain ⟨g1, g2⟩ := ih s' _ hH.buffered
        (zero_not_mem_unterminated (zero_not_mem_forced (zero_not_mem_append hv0 hbs0)))
        hshort (fun bs' h => hnul bs' (List.mem_cons_of_mem _ h))
      rw [hserve]
      refine ⟨?_, g2⟩
      intro x hx
      simp only [Result.after, reads_of_append, hreads, List.mem_append, List.mem_singleton] at hx
      rcases hx with rfl | hx
      · exact hpos
      · exact g1 x hx

/-! ## Lemmas: `strtol` and `parse_arguments` -/

theorem parse_arguments_returned :
    ∀ (opts : List GetoptResult) (port : Int) (verbose : Bool) (p : Int) (v : Bool),
      parse_arguments opts port verbose = .returned p v →
      (∀ o ∈ opts, o.opt = 112 → valid_port o.optarg) ∧ p = last_port opts port ∧
      (∀ o ∈ opts, o.opt = 112 ∨ o.opt = 118) := by
  intro opts
  induction opts with
  | nil =>
    intro port verbose p v h
    simp only [parse_arguments, ParseResult.returned.injEq] at h
    exact ⟨by simp, by simp [last_port, h.1], by simp⟩
  | cons o os ih =>
    intro port verbose p v h
    rw [parse_arguments] at h
    by_cases hp : o.opt = 112
    · simp only [hp, if_true] at h
      by_cases hbad : (strtol o.optarg).2 ≠ [] ∨ (strtol o.optarg).1 < 1 ∨
          (strtol o.optarg).1 > 65535
      · rw [if_pos hbad] at h
        cases h
      · rw [if_neg hbad] at h
        have hv : valid_port o.optarg := by
          unfold valid_port
          simp only [not_or, not_not, not_lt, gt_iff_lt] at hbad
          exact hbad
        obtain ⟨i1, i2, i3⟩ := ih _ _ _ _ h
        refine ⟨?_, ?_, ?_⟩
        · intro o' ho' hp'
          rcases List.mem_cons.mp ho' with rfl | ho'
          · exact hv
          · exact i1 o' ho' hp'
        · rw [i2, to_int_eq hv.2.1 hv.2.2]
          simp [last_port, hp]
        · intro o' ho'
          rcases List.mem_cons.mp ho' with rfl | ho'
          · exact Or.inl hp
          · exact i3 o' ho'
    · simp only [hp, if_false] at h
      by_cases hv : o.opt = 118
      · simp only [hv, if_true] at h
        obtain ⟨i1, i2, i3⟩ := ih _ _ _ _ h
        refine ⟨?_, ?_, ?_⟩
        · intro o' ho' hp'
          rcases List.mem_cons.mp ho' with rfl | ho'
          · exact absurd hp' hp
          · exact i1 o' ho' hp'
        · rw [i2]
          simp [last_port, hp]
        · intro o' ho'
          rcases List.mem_cons.mp ho' with rfl | ho'
          · exact Or.inr hv
          · exact i3 o' ho'
      · simp only [hv, if_false] at h
        by_cases hh : o.opt = 104
        · simp only [hh, if_true] at h
          cases h
        · simp only [hh, if_false] at h
          cases h

theorem parse_arguments_reaches :
    ∀ (pre : List GetoptResult) (port : Int) (verbose : Bool),
      (∀ o ∈ pre, o.opt = 118 ∨ (o.opt = 112 ∧ valid_port o.optarg)) →
      ∃ port' verbose', ∀ rest, parse_arguments (pre ++ rest) port verbose
        = parse_arguments rest port' verbose' := by
  intro pre
  induction pre with
  | nil => intro port verbose _; exact ⟨port, verbose, fun _ => rfl⟩
  | cons o os ih =>
    intro port verbose h
    have ho := h o (List.mem_cons_self _ _)
    have hos := fun o' ho' => h o' (List.mem_cons_of_mem _ ho')
    rcases ho with hv | ⟨hp, hval⟩
    · obtain ⟨p', v', hr⟩ := ih port true hos
      refine ⟨p', v', fun rest => ?_⟩
      rw [List.cons_append, parse_arguments]
      have hp : ¬ o.opt = 112 := by rw [hv]; decide
      simp only [hp, hv, if_true, if_false]
      exact hr rest
    · obtain ⟨p', v', hr⟩ := ih (to_int (strtol o.optarg).1) verbose hos
      refine ⟨p', v', fun rest => ?_⟩
      rw [List.cons_append, parse_arguments]
      have hgood : ¬ ((strtol o.optarg).2 ≠ [] ∨ (strtol o.optarg).1 < 1 ∨
          (strtol o.optarg).1 > 65535) := by
        unfold valid_port at hval
        simp only [not_or, not_not, not_lt, gt_iff_lt]
        exact hval
      simp only [hp, if_true, hgood, if_false]
      exact hr rest

theorem strtol_digits_map :
    ∀ (ds : List Nat) (acc : Nat), (∀ d ∈ ds, d < 10) →
      strtol_digits (ds.map (· + 48)) acc = (ds.foldl (fun a d => a * 10 + d) acc, []) := by
  intro ds
  induction ds with
  | nil => intro acc _; rfl
  | cons d ds ih =>
    intro acc h
    have hd : d < 10 := h d (List.mem_cons_self _ _)
    have hdig : isdigit (d + 48) = true := by
      simp only [isdigit, Bool.and_eq_true, decide_eq_true_eq]
      omega
    rw [List.map_cons, strtol_digits, if_pos hdig, List.foldl_cons,
      ih _ (fun d' hd' => h d' (List.mem_cons_of_mem _ hd'))]
    simp

theorem foldr_digits (l : List Nat) :
    l.foldr (fun d a => a * 10 + d) 0 = Nat.ofDigits 10 l := by
  induction l with
  | nil => rfl
  | cons d l ih =>
    rw [List.foldr_cons, ih, Nat.ofDigits_cons]
    omega

theorem strtol_of_digit_head (c : Nat) (cs : List Nat) (h : isdigit c = true) :
    strtol (c :: cs) = (max LONG_MIN (min LONG_MAX ((strtol_digits (c :: cs) 0).1 : Int)),
      (strtol_digits (c :: cs) 0).2) := by
  simp only [isdigit, Bool.and_eq_true, decide_eq_true_eq] at h
  have hsp : isspace c = false := by
    simp only [isspace, Bool.or_eq_false_iff, decide_eq_false_iff_not, Bool.and_eq_false_iff]
    omega
  have h45 : ¬ c = 45 := by omega
  have h43 : ¬ c = 43 := by omega
  have hdig : isdigit c = true := by
    simp only [isdigit, Bool.and_eq_true, decide_eq_true_eq]
    omega
  unfold strtol
  simp only [List.dropWhile, hsp, List.head?_cons, Option.some.injEq, h45, h43, or_self,
    if_false, hdig, if_true, decide_False, Bool.false_eq_true]

theorem strtol_decimal (n : Nat) : strtol (decimal n) = (min LONG_MAX (n : Int), []) := by
  by_cases hn : n = 0
  · subst hn
    decide
  · unfold decimal
    rw [if_neg hn]
    have hlt : ∀ d ∈ (Nat.digits 10 n).reverse, d < 10 := fun d hd =>
      Nat.digits_lt_base (by decide) (List.mem_reverse.mp hd)
    have hval : (strtol_digits ((Nat.digits 10 n).reverse.map (· + 48)) 0) = (n, []) := by
      rw [strtol_digits_map _ 0 hlt, List.foldl_reverse, foldr_digits, Nat.ofDigits_digits]
    have hne : (Nat.digits 10 n).reverse ≠ [] := by
      simpa using Nat.digits_ne_nil_iff_ne_zero.mpr hn
    cases hds : (Nat.digits 10 n).reverse with
    | nil => exact absurd hds hne
    | cons d ds =>
      rw [hds] at hval hlt
      have hd : d < 10 := hlt d (List.mem_cons_self _ _)
      have hdig : isdigit (d + 48) = true := by
        simp only [isdigit, Bool.and_eq_true, decide_eq_true_eq]
        omega
      rw [List.map_cons] at hval ⊢
      rw [strtol_of_digit_head _ _ hdig, hval]
      simp only [Prod.mk.injEq, and_true]
      unfold LONG_MIN LONG_MAX
      omega

theorem main_startup_decimal (n : Nat) :
    main_startup [⟨112, decimal n⟩] =
      if 1 ≤ n ∧ n ≤ 65535 then .setup_server_socket (n : Int) false
      else .exited EXIT_FAILURE := by
  unfold main_startup
  rw [parse_arguments]
  simp only [if_true, strtol_decimal]
  by_cases h : 1 ≤ n ∧ n ≤ 65535
  · have hmin : min LONG_MAX (n : Int) = n := by unfold LONG_MAX; omega
    have hgood : ¬ (([] : List Nat) ≠ [] ∨ (n : Int) < 1 ∨ (n : Int) > 65535) := by
      simp only [ne_eq, not_true_eq_false, false_or, not_or, not_lt, gt_iff_lt]
      omega
    rw [hmin, if_neg hgood, if_pos h, to_int_eq (by omega) (by omega), parse_arguments]
  · have hbad : (([] : List Nat) ≠ [] ∨ min LONG_MAX (n : Int) < 1 ∨
        min LONG_MAX (n : Int) > 65535) := by
      right
      unfold LONG_MAX
      omega
    rw [if_pos hbad, if_neg h]

/-! ## The line-buffering contract -/

/-- C1: for every sequence of successful (non-empty) reads with no NUL byte,
with every write succeeding and the buffered length staying below
`BUFFER_SIZE - 1` after every read, the bytes written back are exactly the
longest prefix of the concatenated chunks that ends with a newline, whatever
the split into chunks; the unterminated rest stays buffered and the handler
waits for the next read. -/
theorem longest_line_prefix_echoed (verbose : Bool) (w : Nat → Nat → Int) (fuel : Nat)
    (garbage : Nat → Nat) (chunks : List (List Nat))
    (hw : GoodWrites w) (hfuel : BUFFER_SIZE ≤ fuel)
    (hne : ∀ c ∈ chunks, c ≠ []) (hnul : ∀ c ∈ chunks, 0 ∉ c)
    (hfull : never_full (handle_connection verbose w fuel garbage (chunks.map .data)).trace) :
    echoed (handle_connection verbose w fuel garbage (chunks.map .data)).trace
      = longestLinePrefix chunks.flatten ∧
    (handle_connection verbose w fuel garbage (chunks.map .data)).buffered
      = unterminated chunks.flatten ∧
    (handle_connection verbose w fuel garbage (chunks.map .data)).status = .blocked := by
  unfold handle_connection at hfull ⊢
  obtain ⟨h1, h2, h3⟩ := serve_chunks_good hw verbose fuel hfuel chunks (initial garbage) []
    (initial_buffered garbage) (List.not_mem_nil _) (List.not_mem_nil _) hne hnul hfull
  rw [List.nil_append] at h2 h3
  exact ⟨h2, h3.take_eq, h1⟩

set_option maxRecDepth 100000 in
theorem longest_line_prefix_echoed_witness :
    echoed (handle_connection false write_full 1024 (fun _ => 0) [.data [104, 101]]).trace
      = [] ∧
    echoed (handle_connection false write_full 1024 (fun _ => 0)
      [.data [104, 101], .data [108, 108, 111, 10]]).trace = [104, 101, 108, 108, 111, 10] ∧
    echoed (handle_connection false write_one 1024 (fun _ => 0)
      [.data [97, 10, 98, 10, 99, 10]]).trace = [97, 10, 98, 10, 99, 10] :=
  ⟨(longest_line_prefix_echoed false write_full 1024 (fun _ => 0) [[104, 101]]
      write_full_good (by decide) (by decide) (by decide) (by decide!)).1,
   (longest_line_prefix_echoed false write_full 1024 (fun _ => 0)
      [[104, 101], [108, 108, 111, 10]]
      write_full_good (by decide) (by decide) (by decide) (by decide!)).1,
   (longest_line_prefix_echoed false write_one 1024 (fun _ => 0) [[97, 10, 98, 10, 99, 10]]
      write_one_good (by decide) (by decide) (by decide) (by decide!)).1⟩

/-- C2 (the code at the failing input): with all writes succeeding, the single
complete line `"a\0b\n"` (one read of four bytes) is not echoed: `strchr`
stops at the NUL byte, nothing at all is written back, and the four bytes
stay in the buffer. -/
theorem nul_line_not_echoed :
    echoed (handle_connection false write_full 1024 (fun _ => 0)
      [.data [97, 0, 98, 10]]).trace = [] ∧
    echoed (handle_connection false write_full 1024 (fun _ => 0)
      [.data [97, 0, 98, 10]]).trace ≠ [97, 0, 98, 10] ∧
    (handle_connection false write_full 1024 (fun _ => 0)
      [.data [97, 0, 98, 10]]).buffered = [97, 0, 98, 10] := by
  set_option maxRecDepth 100000 in decide!

/-- The path without NUL bytes: for every byte sequence without NUL byte,
split into non-empty reads in any way such that the buffered length stays
below `BUFFER_SIZE - 1` after every read, with every write succeeding, that
consists of `k` complete newline-terminated lines followed by an unterminated
remainder, exactly the bytes of those `k` lines are echoed, verbatim and in
order, and the remainder stays buffered, unechoed. -/
theorem echo_complete_lines (verbose : Bool) (w : Nat → Nat → Int) (fuel : Nat)
    (garbage : Nat → Nat) (chunks lines : List (List Nat)) (rem : List Nat)
    (hw : GoodWrites w) (hfuel : BUFFER_SIZE ≤ fuel)
    (hne : ∀ c ∈ chunks, c ≠ []) (hnul : ∀ c ∈ chunks, 0 ∉ c)
    (hfull : never_full (handle_connection verbose w fuel garbage (chunks.map .data)).trace)
    (hsplit : chunks.flatten = lines.flatten ++ rem)
    (hlines : ∀ l ∈ lines, ∃ body, l = body ++ [NEWLINE] ∧ NEWLINE ∉ body)
    (hrem : NEWLINE ∉ rem) :
    echoed (handle_connection verbose w fuel garbage (chunks.map .data)).trace
      = lines.flatten ∧
    (handle_connection verbose w fuel garbage (chunks.map .data)).buffered = rem := by
  unfold handle_connection at hfull ⊢
  obtain ⟨_, h2, h3⟩ := serve_chunks_good hw verbose fuel hfuel chunks (initial garbage) []
    (initial_buffered garbage) (List.not_mem_nil _) (List.not_mem_nil _) hne hnul hfull
  obtain ⟨u1, u2⟩ := longestLinePrefix_unique hrem (flatten_lines_ends lines hlines)
  rw [List.nil_append, hsplit] at h2 h3
  rw [u1] at h2
  rw [u2] at h3
  exact ⟨h2, h3.take_eq⟩

set_option maxRecDepth 100000 in
theorem echo_complete_lines_witness :
    echoed (handle_connection true write_one 1024 (fun _ => 7)
      [.data [97, 10, 98], .data [99, 10, 100]]).trace = [97, 10, 98, 99, 10] ∧
    (handle_connection true write_one 1024 (fun _ => 7)
      [.data [97, 10, 98], .data [99, 10, 100]]).buffered = [100] :=
  echo_complete_lines true write_one 1024 (fun _ => 7) [[97, 10, 98], [99, 10, 100]]
    [[97, 10], [98, 99, 10]] [100] write_one_good (by decide) (by decide) (by decide)
    (by decide!) (by decide)
    (by
      intro l hl
      simp only [List.mem_cons, List.mem_singleton, List.not_mem_nil, or_false] at hl
      rcases hl with rfl | rfl
      · exact ⟨[97], rfl, by decide⟩
      · exact ⟨[98, 99], rfl, by decide⟩)
    (by decide)

/-- C3: for every stream that begins with at least `BUFFER_SIZE - 1 = 1023`
bytes none of which is a newline or a NUL, however it is split into
(non-empty) reads none of which returns more than was requested, with every
write succeeding: some first reads `pre` deliver exactly those 1023 bytes;
after them the handler has echoed exactly the first 1022 bytes of the stream
followed by a synthesized newline (the 1023rd byte is lost), its buffer is
empty, and it goes on with the remaining reads from that empty buffer. -/
theorem overflow_forced_break (verbose : Bool) (w : Nat → Nat → Int) (fuel : Nat)
    (garbage : Nat → Nat) (chunks : List (List Nat))
    (hw : GoodWrites w) (hfuel : BUFFER_SIZE ≤ fuel)
    (hne : ∀ c ∈ chunks, c ≠ [])
    (hlen : BUFFER_SIZE - 1 ≤ chunks.flatten.length)
    (hclean : ∀ b ∈ chunks.flatten.take (BUFFER_SIZE - 1), b ≠ 0 ∧ b ≠ NEWLINE)
    (hreads : (handle_connection verbose w fuel garbage (chunks.map .data)).status
      ≠ .bad_read) :
    ∃ pre rest, chunks = pre ++ rest ∧ pre.flatten.length = BUFFER_SIZE - 1 ∧
      (handle_connection verbose w fuel garbage (pre.map .data)).status = .blocked ∧
      echoed (handle_connection verbose w fuel garbage (pre.map .data)).trace
        = chunks.flatten.take (BUFFER_SIZE - 2) ++ [NEWLINE] ∧
      (handle_connection verbose w fuel garbage (pre.map .data)).final.buffer_len = 0 ∧
      handle_connection verbose w fuel garbage (chunks.map .data)
        = (serve verbose w fuel
            (handle_connection verbose w fuel garbage (pre.map .data)).final
            (rest.map .data)).after
            (handle_connection verbose w fuel garbage (pre.map .data)).trace := by
  unfold handle_connection at hreads ⊢
  obtain ⟨pre, rest, hsplit, hpre, hplen⟩ := serve_aligned hw verbose fuel hfuel chunks
    (initial garbage) [] (initial_buffered garbage) (List.not_mem_nil _) (List.not_mem_nil _)
    (by simp [BUFFER_SIZE]) hne (by simpa using hlen) (by simpa using hclean) hreads
  rw [List.length_nil, Nat.zero_add] at hplen
  have hflat : chunks.flatten = pre.flatten ++ rest.flatten := by
    rw [hsplit, List.flatten_append]
  have htake : chunks.flatten.take (BUFFER_SIZE - 1) = pre.flatten := by
    rw [hflat, List.take_left' hplen]
  have hpclean : ∀ c ∈ pre, ∀ b ∈ c, b ≠ 0 ∧ b ≠ NEWLINE := by
    intro c hc b hb
    apply hclean b
    rw [htake]
    exact List.mem_flatten.mpr ⟨c, hc, hb⟩
  obtain ⟨tr, s', h1, _, h3, _, h5⟩ := serve_fill hw verbose fuel hfuel pre (initial garbage) []
    (initial_buffered garbage) (List.not_mem_nil _) (List.not_mem_nil _)
    (fun c hc => hne c (by rw [hsplit]; exact List.mem_append_left _ hc))
    (fun c hc h => (hpclean c hc 0 h).1 rfl)
    (fun c hc h => (hpclean c hc NEWLINE h).2 rfl) hpre
    (by simpa using hplen)
  have hrun := h5 []
  rw [List.append_nil, serve_nil] at hrun
  refine ⟨pre, rest, hsplit, hplen, ?_⟩
  rw [hrun]
  simp only [Result.after, List.append_nil]
  rw [List.nil_append] at h3
  refine ⟨trivial, ?_, h1, ?_⟩
  · rw [h3, hflat, List.take_append_of_le_length (by rw [hplen]; unfold BUFFER_SIZE; omega)]
  · rw [hsplit, List.map_append, h5]
    rfl

set_option maxRecDepth 100000 in
theorem overflow_forced_break_witness :
    (∃ pre rest, [List.replicate 1000 120, List.replicate 23 121, [97, 10]] = pre ++ rest ∧
      pre.flatten.length = BUFFER_SIZE - 1 ∧
      (handle_connection false write_full 1024 (fun _ => 0) (pre.map .data)).status
        = .blocked ∧
      echoed (handle_connection false write_full 1024 (fun _ => 0) (pre.map .data)).trace
        = [List.replicate 1000 120, List.replicate 23 121, [97, 10]].flatten.take
            (BUFFER_SIZE - 2) ++ [NEWLINE] ∧
      (handle_connection false write_full 1024 (fun _ => 0)
        (pre.map .data)).final.buffer_len = 0 ∧
      handle_connection false write_full 1024 (fun _ => 0)
          ([List.replicate 1000 120, List.replicate 23 121, [97, 10]].map .data)
        = (serve false write_full 1024
            (handle_connection false write_full 1024 (fun _ => 0) (pre.map .data)).final
            (rest.map .data)).after
            (handle_connection false write_full 1024 (fun _ => 0) (pre.map .data)).trace) ∧
    echoed (handle_connection false write_full 1024 (fun _ => 0)
      [.data (List.replicate 1000 120), .data (List.replicate 23 121), .data [97, 10]]).trace
      = List.replicate 1000 120 ++ List.replicate 22 121 ++ [10] ++ [97, 10] :=
  ⟨overflow_forced_break false write_full 1024 (fun _ => 0)
    [List.replicate 1000 120, List.replicate 23 121, [97, 10]] write_full_good (by decide)
    (by decide!) (by decide!) (by decide!) (by decide!), by decide!⟩

/-- C4 (counterexample): one read of 1023 bytes, `"a\n"` followed by 1021
bytes `'x'`, with all writes succeeding. The buffer already holds a newline,
yet line 103 overwrites the last `'x'`: the handler echoes `"a\n"` and then
1020 bytes `'x'` with a synthesized newline, and nothing stays buffered. -/
theorem full_buffer_overwrites_despite_newline :
    echoed (handle_connection false write_full 1024 (fun _ => 0)
      [.data ([97, 10] ++ List.replicate 1021 120)]).trace
      = [97, 10] ++ List.replicate 1020 120 ++ [10] ∧
    (handle_connection false write_full 1024 (fun _ => 0)
      [.data ([97, 10] ++ List.replicate 1021 120)]).buffered = [] ∧
    ¬ (echoed (handle_connection false write_full 1024 (fun _ => 0)
        [.data ([97, 10] ++ List.replicate 1021 120)]).trace = [97, 10] ∧
      (handle_connection false write_full 1024 (fun _ => 0)
        [.data ([97, 10] ++ List.replicate 1021 120)]).buffered = List.replicate 1021 120) := by
  set_option maxRecDepth 100000 in decide!

/-- C4 (amended): the forced line break depends on the buffered length alone.
For a handler waiting in `read`, a further non-empty read that fits the
buffer, all writes succeeding: when the buffered length after the read is
below `BUFFER_SIZE - 1`, the bytes echoed followed by the bytes still buffered
are exactly the bytes buffered before followed by the bytes read (nothing is
overwritten); when it is `BUFFER_SIZE - 1` they are those bytes with the last
one (index 1022) replaced by a newline, whether or not a newline was already
buffered. -/
theorem read_conserves_bytes (verbose : Bool) (w : Nat → Nat → Int) (fuel : Nat)
    (garbage : Nat → Nat) (reads : List ReadResult) (bs : List Nat)
    (hw : GoodWrites w) (hfuel : BUFFER_SIZE ≤ fuel)
    (hst : (handle_connection verbose w fuel garbage reads).status = .blocked)
    (hne : bs ≠ [])
    (hlen : (handle_connection verbose w fuel garbage reads).final.buffer_len + bs.length
      ≤ BUFFER_SIZE - 1) :
    ∃ tr, (handle_connection verbose w fuel garbage (reads ++ [.data bs])).trace
        = (handle_connection verbose w fuel garbage reads).trace ++ tr ∧
      (handle_connection verbose w fuel garbage (reads ++ [.data bs])).status = .blocked ∧
      echoed tr ++ (handle_connection verbose w fuel garbage (reads ++ [.data bs])).buffered
        = if (handle_connection verbose w fuel garbage reads).final.buffer_len + bs.length
            = BUFFER_SIZE - 1
          then ((handle_connection verbose w fuel garbage reads).buffered ++ bs).take
            (BUFFER_SIZE - 2) ++ [NEWLINE]
          else (handle_connection verbose w fuel garbage reads).buffered ++ bs := by
  unfold handle_connection at *
  obtain ⟨_, _, ⟨v, hB⟩, _⟩ := serve_inv verbose w fuel hfuel reads (initial garbage) []
    (initial_buffered garbage)
  have hv : (serve verbose w fuel (initial garbage) reads).buffered = v := hB.take_eq
  rw [hv]
  have hbl := hB.2.1
  rw [hbl] at hlen ⊢
  obtain ⟨tr, s', v', hH, hech, hserve⟩ :=
    serve_step_conserve hw verbose fuel hfuel _ v bs hB hne hlen
  rw [serve_append verbose w fuel reads (initial garbage) [.data bs] hst, hserve, serve_nil]
  refine ⟨tr, by simp [Result.after], rfl, ?_⟩
  have hbuf : (Result.after (serve verbose w fuel (initial garbage) reads).trace
      (Result.after tr ⟨[], s', .blocked⟩)).buffered = v' :=
    hH.buffered.take_eq
  rw [hbuf, hech, forced, List.length_append]

set_option maxRecDepth 100000 in
theorem read_conserves_bytes_witness :
    (∃ tr, (handle_connection false write_full 1024 (fun _ => 0)
          ([.data [104, 10, 0, 101]] ++ [.data [108, 10, 111]])).trace
        = (handle_connection false write_full 1024 (fun _ => 0)
            [.data [104, 10, 0, 101]]).trace ++ tr ∧
      (handle_connection false write_full 1024 (fun _ => 0)
          ([.data [104, 10, 0, 101]] ++ [.data [108, 10, 111]])).status = .blocked ∧
      echoed tr ++ (handle_connection false write_full 1024 (fun _ => 0)
          ([.data [104, 10, 0, 101]] ++ [.data [108, 10, 111]])).buffered
        = [0, 101, 108, 10, 111]) ∧
    (∃ tr, (handle_connection false write_one 1024 (fun _ => 0)
          ([.data [98, 10, 99]] ++ [.data (List.replicate 1020 121)])).trace
        = (handle_connection false write_one 1024 (fun _ => 0) [.data [98, 10, 99]]).trace
          ++ tr ∧
      (handle_connection false write_one 1024 (fun _ => 0)
          ([.data [98, 10, 99]] ++ [.data (List.replicate 1020 121)])).status = .blocked ∧
      echoed tr ++ (handle_connection false write_one 1024 (fun _ => 0)
          ([.data [98, 10, 99]] ++ [.data (List.replicate 1020 121)])).buffered
        = [99] ++ List.replicate 1020 121) ∧
    (∃ tr, (handle_connection false write_full 1024 (fun _ => 0)
          ([.data [98, 10, 99]] ++ [.data (List.replicate 1022 121)])).trace
        = (handle_connection false write_full 1024 (fun _ => 0) [.data [98, 10, 99]]).trace
          ++ tr ∧
      (handle_connection false write_full 1024 (fun _ => 0)
          ([.data [98, 10, 99]] ++ [.data (List.replicate 1022 121)])).status = .blocked ∧
      echoed tr ++ (handle_connection false write_full 1024 (fun _ => 0)
          ([.data [98, 10, 99]] ++ [.data (List.replicate 1022 121)])).buffered
        = [99] ++ List.replicate 1021 121 ++ [NEWLINE]) :=
  ⟨read_conserves_bytes false write_full 1024 (fun _ => 0) [.data [104, 10, 0, 101]]
      [108, 10, 111] write_full_good (by decide) (by decide!) (by decide) (by decide!),
   read_conserves_bytes false write_one 1024 (fun _ => 0) [.data [98, 10, 99]]
      (List.replicate 1020 121) write_one_good (by decide) (by decide!) (by decide!)
      (by decide!),
   read_conserves_bytes false write_full 1024 (fun _ => 0) [.data [98, 10, 99]]
      (List.replicate 1022 121) write_full_good (by decide) (by decide!) (by decide!)
      (by decide!)⟩

/-! ## Failures and termination of the read loop -/

/-- C5 (the code at the failing input): reads `"ab\n"` then `"c\n"`; the first
`write` sends one byte, the second fails, the later ones send everything.
After the failed `write` the handler prints `write failed` and leaves the
inner loop only: it issues another `read` and two more `write`s, sending
the line `"ab\n"` again from its start, so that the client receives
`"a"`, `"ab\n"`, `"c\n"`; it has not returned. -/
theorem write_failure_keeps_reading :
    (handle_connection false (fun k n => if k = 0 then 1 else if k = 1 then -1 else (n : Int))
      1024 (fun _ => 0) [.data [97, 98, 10], .data [99, 10]]).trace =
      [.read 0 1023 (.data [97, 98, 10]), .line 3 3, .write 0 [97, 98, 10] 1,
       .write 1 [98, 10] (-1), .perror_write,
       .read 3 1020 (.data [99, 10]), .line 3 5, .write 0 [97, 98, 10] 3,
       .line 2 2, .write 0 [99, 10] 2] ∧
    echoed (handle_connection false
      (fun k n => if k = 0 then 1 else if k = 1 then -1 else (n : Int))
      1024 (fun _ => 0) [.data [97, 98, 10], .data [99, 10]]).trace =
      [97, 97, 98, 10, 99, 10] ∧
    (handle_connection false (fun k n => if k = 0 then 1 else if k = 1 then -1 else (n : Int))
      1024 (fun _ => 0) [.data [97, 98, 10], .data [99, 10]]).status = .blocked := by
  set_option maxRecDepth 100000 in decide!

/-- C6 (the code at the failing input): all writes succeed; the first read
returns 1023 bytes that start with a NUL. `strchr` finds no newline, the buffer stays full,
and the next `read` is issued with a requested count of `0`; its return value
`0` ends the loop as if the peer had closed the connection. -/
theorem zero_count_read_after_nul :
    reads_of (handle_connection false write_full 1024 (fun _ => 0)
      [.data (0 :: List.replicate 1022 120), .data []]).trace =
      [(0, 1023, .data (0 :: List.replicate 1022 120)), (1023, 0, .data [])] ∧
    (handle_connection false write_full 1024 (fun _ => 0)
      [.data (0 :: List.replicate 1022 120), .data []]).status = .eof := by
  set_option maxRecDepth 100000 in decide!

/-- The path without NUL bytes and without failed writes: provided no received
byte is NUL and every write succeeds, whatever the results of the reads, every
`read` the handler issues requests at least one byte: the buffered length is
at most `BUFFER_SIZE - 2 = 1022` whenever the loop condition is evaluated. -/
theorem reads_request_positive (verbose : Bool) (w : Nat → Nat → Int) (fuel : Nat)
    (garbage : Nat → Nat) (reads : List ReadResult)
    (hw : GoodWrites w) (hfuel : BUFFER_SIZE ≤ fuel)
    (hnul : ∀ bs, ReadResult.data bs ∈ reads → 0 ∉ bs) :
    (∀ x ∈ reads_of (handle_connection verbose w fuel garbage reads).trace,
      1 ≤ x.2.1 ∧ x.1 ≤ BUFFER_SIZE - 2) ∧
    (handle_connection verbose w fuel garbage reads).final.buffer_len ≤ BUFFER_SIZE - 2 := by
  unfold handle_connection
  obtain ⟨h1, h2⟩ := serve_reads_positive hw verbose fuel hfuel reads (initial garbage) []
    (initial_buffered garbage) (List.not_mem_nil _) (by simp [BUFFER_SIZE]) hnul
  obtain ⟨_, _, _, h4⟩ := serve_inv verbose w fuel hfuel reads (initial garbage) []
    (initial_buffered garbage)
  refine ⟨?_, by unfold BUFFER_SIZE at *; omega⟩
  intro x hx
  have hx1 := h1 x hx
  refine ⟨hx1, ?_⟩
  obtain ⟨off, count, res⟩ := x
  have hmem := mem_of_mem_reads_of hx
  have hb := h4 _ hmem
  simp only [Event.bounds_ok] at hb
  simp only at hx1
  unfold BUFFER_SIZE at *
  omega

set_option maxRecDepth 100000 in
theorem reads_request_positive_witness :
    (∀ x ∈ reads_of (handle_connection false write_full 1024 (fun _ => 0)
        [.data (List.replicate 1023 120), .data [97], .error]).trace,
      1 ≤ x.2.1 ∧ x.1 ≤ BUFFER_SIZE - 2) ∧
    (handle_connection false write_full 1024 (fun _ => 0)
      [.data (List.replicate 1023 120), .data [97], .error]).final.buffer_len
        ≤ BUFFER_SIZE - 2 :=
  reads_request_positive false write_full 1024 (fun _ => 0)
    [.data (List.replicate 1023 120), .data [97], .error] write_full_good (by decide)
    (by
      intro bs hbs
      simp only [List.mem_cons, List.mem_singleton, List.not_mem_nil, or_false] at hbs
      rcases hbs with h | h | h
      · cases h; decide!
      · cases h; decide
      · cases h)

/-! ## Port validation -/

/-- C7: port validation. (1) If `parse_arguments` returns, every argument
given to `-p` was entirely consumed by `strtol` with a value in `1 .. 65535`,
and the port is the value of the last of them (the port passed in when there
is none). (2) When the options up to a `-p` are accepted ones (`-v`, or `-p`
with a valid argument) and the argument of that `-p` has a value below 1 or
above 65535 or is not entirely consumed, the process exits with
`EXIT_FAILURE` and `setup_server_socket` is never called; so for `"0"`,
`"99999"` and `"abc"`. (3) With no `-p`, `setup_server_socket` gets the default
port 2345. (4) The value is the base-10 one: for the decimal numeral of `n`,
`-p` sets the port to `n` when `1 ≤ n ≤ 65535` and exits with `EXIT_FAILURE`
otherwise. -/
theorem port_validation :
    (∀ (opts : List GetoptResult) (port0 : Int) (verbose0 : Bool) (port : Int)
        (verbose : Bool),
      parse_arguments opts port0 verbose0 = .returned port verbose →
      (∀ o ∈ opts, o.opt = 112 → valid_port o.optarg) ∧ port = last_port opts port0) ∧
    (∀ (pre post : List GetoptResult) (s : List Nat),
      (∀ o ∈ pre, o.opt = 118 ∨ (o.opt = 112 ∧ valid_port o.optarg)) →
      ¬ valid_port s →
      (∀ port0 verbose0, parse_arguments (pre ++ ⟨112, s⟩ :: post) port0 verbose0
        = .exited EXIT_FAILURE (.invalid_port s)) ∧
      main_startup (pre ++ ⟨112, s⟩ :: post) = .exited EXIT_FAILURE) ∧
    (main_startup [⟨112, [48]⟩] = .exited EXIT_FAILURE ∧
      main_startup [⟨112, [57, 57, 57, 57, 57]⟩] = .exited EXIT_FAILURE ∧
      main_startup [⟨112, [97, 98, 99]⟩] = .exited EXIT_FAILURE) ∧
    (∀ (opts : List GetoptResult) (port : Int) (verbose : Bool),
      (∀ o ∈ opts, o.opt ≠ 112) →
      main_startup opts = .setup_server_socket port verbose → port = 2345) ∧
    (∀ n : Nat, main_startup [⟨112, decimal n⟩] =
      if 1 ≤ n ∧ n ≤ 65535 then .setup_server_socket (n : Int) false
      else .exited EXIT_FAILURE) := by
  refine ⟨?_, ?_, ⟨by decide, by decide, by decide⟩, ?_, main_startup_decimal⟩
  · intro opts port0 verbose0 port verbose h
    obtain ⟨h1, h2, _⟩ := parse_arguments_returned opts port0 verbose0 port verbose h
    exact ⟨h1, h2⟩
  · intro pre post s hpre hs
    have hexit : ∀ port0 verbose0, parse_arguments (pre ++ ⟨112, s⟩ :: post) port0 verbose0
        = .exited EXIT_FAILURE (.invalid_port s) := by
      intro port0 verbose0
      obtain ⟨p', v', hr⟩ := parse_arguments_reaches pre port0 verbose0 hpre
      rw [hr, parse_arguments]
      have hbad : (strtol s).2 ≠ [] ∨ (strtol s).1 < 1 ∨ (strtol s).1 > 65535 := by
        unfold valid_port at hs
        by_contra hcon
        simp only [not_or, not_not, not_lt, gt_iff_lt] at hcon
        exact hs hcon
      simp only [if_true, hbad]
    refine ⟨hexit, ?_⟩
    unfold main_startup
    rw [hexit]
  · intro opts port verbose hno h
    unfold main_startup at h
    cases hpa : parse_arguments opts DEFAULT_PORT false with
    | exited st msg => rw [hpa] at h; cases h
    | returned p v =>
      rw [hpa] at h
      simp only [Startup.setup_server_socket.injEq] at h
      obtain ⟨_, h2, _⟩ := parse_arguments_returned opts _ _ _ _ hpa
      have hlast : ∀ (os : List GetoptResult) (p0 : Int), (∀ o ∈ os, o.opt ≠ 112) →
          last_port os p0 = p0 := by
        intro os
        induction os with
        | nil => intro p0 _; rfl
        | cons o os ih =>
          intro p0 hos
          rw [last_port, if_neg (hos o (List.mem_cons_self _ _))]
          exact ih p0 (fun o' ho' => hos o' (List.mem_cons_of_mem _ ho'))
      rw [← h.1, h2, hlast opts _ hno]
      rfl

theorem port_validation_witness :
    main_startup ([⟨118, []⟩, ⟨112, [56, 48]⟩] ++ ⟨112, [45, 49]⟩ :: [⟨104, []⟩])
      = .exited EXIT_FAILURE ∧
    main_startup [⟨112, decimal 8080⟩] = .setup_server_socket 8080 false ∧
    (8080 : Int) = last_port [⟨112, [50, 50]⟩, ⟨118, []⟩, ⟨112, [56, 48, 56, 48]⟩] 2345 :=
  ⟨(port_validation.2.1 [⟨118, []⟩, ⟨112, [56, 48]⟩] [⟨104, []⟩] [45, 49]
      (by decide) (by decide)).2,
   (port_validation.2.2.2.2 8080).trans (by decide),
   (port_validation.1 [⟨112, [50, 50]⟩, ⟨118, []⟩, ⟨112, [56, 48, 56, 48]⟩] 2345 false
      8080 true (by decide)).2⟩

/-! ## Partial writes -/

/-- C8: `write_all` handles partial writes. If every `write` call returns a
number of bytes between 1 and the number requested then (with fuel for
`count` iterations) `write_all` terminates and returns `count`, and the bytes
its `write` calls put on the wire, concatenated in order, are exactly
`buf[0 .. count)`; and whenever a `write` call returns a negative value, that
call is the last one `write_all` makes and `write_all` returns that value. -/
theorem write_all_short_writes (w : Nat → Nat → Int) (fuel k : Nat) (buf : List Nat)
    (count : Nat) (hcount : count ≤ buf.length) (hbuf : buf.length ≤ SSIZE_MAX) :
    (GoodWrites w → count < fuel →
      (write_all fuel w k buf count).ret = some (count : Int) ∧
      echoed (write_all fuel w k buf count).trace = buf.take count) ∧
    (∀ pre off bytes res post,
      (write_all fuel w k buf count).trace = pre ++ Event.write off bytes res :: post →
      res < 0 → post = [] ∧ (write_all fuel w k buf count).ret = some res) := by
  refine ⟨?_, write_all_loop_failure w buf count fuel k 0⟩
  intro hw hfuel
  obtain ⟨h1, _, h3⟩ := write_all_loop_good hw buf count (le_trans hcount hbuf) fuel k 0
    (Nat.zero_le _) (by omega)
  exact ⟨h1, by simpa using h3⟩

theorem write_all_short_writes_witness :
    ((write_all 6 write_one 0 [104, 101, 108, 108, 111, 10, 33] 5).ret = some 5 ∧
      echoed (write_all 6 write_one 0 [104, 101, 108, 108, 111, 10, 33] 5).trace
        = [104, 101, 108, 108, 111]) ∧
    (write_all 6 (fun k _ => if k = 2 then -1 else 1) 0 [104, 101, 108, 108, 111] 5).trace
      = [.write 0 [104, 101, 108, 108, 111] 1, .write 1 [101, 108, 108, 111] 1,
         .write 2 [108, 108, 111] (-1)] ∧
    (write_all 6 (fun k _ => if k = 2 then -1 else 1) 0 [104, 101, 108, 108, 111] 5).ret
      = some (-1) :=
  ⟨(write_all_short_writes write_one 6 0 [104, 101, 108, 108, 111, 10, 33] 5
      (by decide) (by decide)).1 write_one_good (by decide),
    by decide,
    ((write_all_short_writes (fun k _ => if k = 2 then -1 else 1) 6 0
      [104, 101, 108, 108, 111] 5 (by decide) (by decide)).2
      [.write 0 [104, 101, 108, 108, 111] 1, .write 1 [101, 108, 108, 111] 1]
      2 [108, 108, 111] (-1) [] (by decide) (by decide)).2⟩

/-! ## Buffer bounds -/

/-- C10: buffer bounds. For every run of the handler (any results of `read`
that `read` can return, any results of `write`), with fuel for
`BUFFER_SIZE` iterations of the inner loop: no access leaves the 1024-byte
array (the run never ends `out_of_bounds`), the inner loop always terminates
(the run never ends `loop_hang`), `buffer_len ≤ BUFFER_SIZE - 1` at every
`read`, at every extracted line and at the end, every `read` requests
`BUFFER_SIZE - 1 - buffer_len` bytes, and every extracted line satisfies
`1 ≤ line_length ≤ buffer_len`, so that `remaining = buffer_len - line_length`
does not underflow and is smaller than `buffer_len`: each iteration of the
inner loop decreases `buffer_len`. -/
theorem buffer_bounds_invariant (verbose : Bool) (w : Nat → Nat → Int) (fuel : Nat)
    (garbage : Nat → Nat) (reads : List ReadResult) (hfuel : BUFFER_SIZE ≤ fuel) :
    (handle_connection verbose w fuel garbage reads).status ≠ .out_of_bounds ∧
    (handle_connection verbose w fuel garbage reads).status ≠ .loop_hang ∧
    (handle_connection verbose w fuel garbage reads).final.buffer.length = BUFFER_SIZE ∧
    (handle_connection verbose w fuel garbage reads).final.buffer_len ≤ BUFFER_SIZE - 1 ∧
    ∀ e ∈ (handle_connection verbose w fuel garbage reads).trace, e.bounds_ok := by
  unfold handle_connection
  obtain ⟨h1, h2, ⟨v, hB⟩, h4⟩ := serve_inv verbose w fuel hfuel reads (initial garbage) []
    (initial_buffered garbage)
  refine ⟨h1, h2, hB.1, ?_, h4⟩
  have := hB.length_lt
  rw [hB.2.1]
  omega

set_option maxRecDepth 100000 in
theorem buffer_bounds_invariant_witness :
    (handle_connection true (fun k _ => if k = 1 then -1 else 0) 1024 (fun n => n)
      [.data [97, 0, 10, 98], .data (List.replicate 1019 10), .error]).status
        = .read_error ∧
    ∀ e ∈ (handle_connection true (fun k _ => if k = 1 then -1 else 0) 1024 (fun n => n)
      [.data [97, 0, 10, 98], .data (List.replicate 1019 10), .error]).trace, e.bounds_ok :=
  ⟨by decide!,
   (buffer_bounds_invariant true (fun k _ => if k = 1 then -1 else 0) 1024 (fun n => n)
      [.data [97, 0, 10, 98], .data (List.replicate 1019 10), .error] (by decide)).2.2.2.2⟩

end EchoServer
